import Mathlib

/-!
Verification development for the post module of a static-site generator
(`lib/hexo/post.ts`): the swig-tag escape/restore scanner
(`PostRenderEscape`), front-matter preparation (`prepareFrontMatter`),
the metadata merge step of `_renderScaffold`, the draft lookup of
`publish`, and the input selection of `render`.

Strings are modelled as `List Char`.  The escape table (`this.stored`)
is a `List (List Char)` on the escape side and a
`List (Option (List Char))` on the restore side, where `none` models a
consumed (nulled-out) slot.  Failure of the node `assert` in
`restoreContent` is modelled by returning `none`.
-/

namespace PostSpec

/-- The object-replacement character `U+FFFC` used as placeholder delimiter. -/
def objRepl : Char := '￼'

/-- The double-quote character. -/
def dquote : Char := Char.ofNat 34

/-- The single-quote character. -/
def squote : Char := Char.ofNat 39

/-- The backslash character. -/
def bslash : Char := Char.ofNat 92

/-- Decimal digit to character, `digitChar n = Char.ofNat (48 + n)`. -/
def digitChar (n : Nat) : Char := Char.ofNat (48 + n)

/-- Fuel-driven decimal printer (the fuel makes the recursion structural). -/
def natDigitsAux : Nat → Nat → List Char
  | 0, _ => []
  | fuel + 1, n =>
    if n < 10 then [digitChar n]
    else natDigitsAux fuel (n / 10) ++ [digitChar (n % 10)]

/-- Decimal representation of a natural number, as produced by the
JavaScript template interpolation of the placeholder index. -/
def natDigits (n : Nat) : List Char := natDigitsAux (n + 1) n

/-- Decimal reading of a digit run, as the regex capture `(\d+)` is used
as an array index. -/
def digitsToNat (ds : List Char) : Nat :=
  ds.foldl (fun a c => 10 * a + (c.toNat - 48)) 0

/-- Scanner state of `escapeAllSwigTags` (the `State` enum in the source). -/
inductive PState where
  | PLAINTEXT
  | SWIG_VAR
  | SWIG_COMMENT
  | SWIG_TAG
deriving DecidableEq, BEq

/-- The `swig` flag of `escapeContent`. -/
def swigFlag : List Char := ['s', 'w', 'i', 'g']

/-- `PostRenderEscape.escapeContent`: appends the string to the cache and
returns the placeholder text, whose index is the pre-push cache length. -/
def escapeContent (cache : List (List Char)) (flag : List Char) (s : List Char) :
    List (List Char) × List Char :=
  (cache ++ [s],
    '<' :: '!' :: '-' :: '-' :: (flag ++ objRepl :: (natDigits cache.length ++ ['-', '-', '>'])))

/-- The placeholder text `<!--swig￼n-->` for index `n`. -/
def phSwig (n : Nat) : List Char :=
  '<' :: '!' :: '-' :: '-' :: 's' :: 'w' :: 'i' :: 'g' :: objRepl ::
    (natDigits n ++ ['-', '-', '>'])

/-- `String.prototype.includes`: the pattern occurs as a contiguous
substring. -/
def strIncludes (l pat : List Char) : Bool :=
  pat.isPrefixOf l ||
    match l with
    | [] => false
    | _ :: t => strIncludes t pat

/-- The character scanner loop of `escapeAllSwigTags`.  `full` is the whole
input string (used by the `isFullTag` check), `buf` is `currentBuffer`,
and `cache` is `this.stored`.  Returns the final cache and the joined
output. -/
def scan (full : List Char) :
    PState → List Char → List Char → List (List Char) → List (List Char) × List Char
  | _, _, [], cache => (cache, [])
  | .PLAINTEXT, buf, '{' :: '{' :: cs, cache => scan full .SWIG_VAR buf cs cache
  | .PLAINTEXT, buf, '{' :: '#' :: cs, cache => scan full .SWIG_COMMENT buf cs cache
  | .PLAINTEXT, _, '{' :: '%' :: cs, cache => scan full .SWIG_TAG [] cs cache
  | .PLAINTEXT, buf, c :: cs, cache =>
    let r := scan full .PLAINTEXT buf cs cache
    (r.1, c :: r.2)
  | .SWIG_VAR, buf, '}' :: '}' :: cs, cache =>
    let ec := escapeContent cache swigFlag ('{' :: '{' :: (buf ++ ['}', '}']))
    let r := scan full .PLAINTEXT [] cs ec.1
    (r.1, ec.2 ++ r.2)
  | .SWIG_VAR, buf, c :: cs, cache => scan full .SWIG_VAR (buf ++ [c]) cs cache
  | .SWIG_COMMENT, _, '#' :: '}' :: cs, cache => scan full .PLAINTEXT [] cs cache
  | .SWIG_COMMENT, buf, _ :: cs, cache => scan full .SWIG_COMMENT buf cs cache
  | .SWIG_TAG, buf, '%' :: '}' :: cs, cache =>
    if strIncludes full ('e' :: 'n' :: 'd' :: buf) then
      let ec := escapeContent cache swigFlag ('{' :: '%' :: (buf ++ ['%', '}']))
      let r := scan full .PLAINTEXT [] cs ec.1
      (r.1, ec.2 ++ r.2)
    else
      let ec := escapeContent cache swigFlag ('{' :: '%' :: (buf ++ ['%', '}']))
      let r := scan full .PLAINTEXT [] cs ec.1
      (r.1, ec.2 ++ r.2)
  | .SWIG_TAG, buf, c :: cs, cache => scan full .SWIG_TAG (buf ++ [c]) cs cache

/-- First alternative `\{[^{}]+\}` of `swigTagRegex`, matching at the head. -/
def alt1At : List Char → Bool
  | '{' :: rest =>
    let t := rest.takeWhile (fun c => !(c == '{') && !(c == '}'))
    !t.isEmpty && ((rest.drop t.length).head? == some '}')
  | _ => false

/-- Second alternative `\{#[^\}\#]+\}` of `swigTagRegex`, matching at the head. -/
def alt2At : List Char → Bool
  | '{' :: '#' :: rest =>
    let t := rest.takeWhile (fun c => !(c == '}') && !(c == '#'))
    !t.isEmpty && ((rest.drop t.length).head? == some '}')
  | _ => false

/-- Third alternative `\{%[^\%]+\}%` of `swigTagRegex`, matching at the head. -/
def alt3At : List Char → Bool
  | '{' :: '%' :: rest =>
    let t := rest.takeWhile (fun c => !(c == '%'))
    ((rest.drop t.length).head? == some '%') && decide (2 ≤ t.length) &&
      (t.getLast? == some '}')
  | _ => false

/-- Any alternative of `swigTagRegex` matching at the head. -/
def swigAltsAt (cs : List Char) : Bool := alt1At cs || alt2At cs || alt3At cs

/-- `swigTagRegex.test str`: some alternative matches at some position. -/
def swigTagRegexTest : List Char → Bool
  | [] => false
  | c :: cs => swigAltsAt (c :: cs) || swigTagRegexTest cs

/-- `PostRenderEscape.escapeAllSwigTags`: early return when the pre-check
regex does not match, otherwise the character scan. -/
def escapeAllSwigTags (stored : List (List Char)) (str : List Char) :
    List (List Char) × List Char :=
  if swigTagRegexTest str then scan str .PLAINTEXT [] str stored else (stored, str)

/-- The literal `!--swig￼` that follows the opening marker in
`rSwigPlaceHolder`. -/
def seedLit : List Char := ['!', '-', '-', 's', 'w', 'i', 'g', objRepl]

/-- The opening alternative `(?:<|&lt;)` of `rSwigPlaceHolder`. -/
def parseOpenMark (cs : List Char) : Option (List Char) :=
  if (['<']).isPrefixOf cs then some (cs.drop 1)
  else if (['&', 'l', 't', ';']).isPrefixOf cs then some (cs.drop 4)
  else none

/-- The closing alternative `(?:>|&gt;)` of `rSwigPlaceHolder`. -/
def parseCloseMark (cs : List Char) : Option (List Char) :=
  if (['>']).isPrefixOf cs then some (cs.drop 1)
  else if (['&', 'g', 't', ';']).isPrefixOf cs then some (cs.drop 4)
  else none

/-- The literal `!--swig￼` part of `rSwigPlaceHolder`. -/
def parseSeed (cs : List Char) : Option (List Char) :=
  if seedLit.isPrefixOf cs then some (cs.drop 8) else none

/-- The greedy capture `(\d+)` of `rSwigPlaceHolder`. -/
def parseDigitRun (cs : List Char) : Option (Nat × List Char) :=
  let ds := cs.takeWhile Char.isDigit
  if ds.isEmpty then none else some (digitsToNat ds, cs.drop ds.length)

/-- The literal `--` of `rSwigPlaceHolder`. -/
def parseDashes (cs : List Char) : Option (List Char) :=
  if (['-', '-']).isPrefixOf cs then some (cs.drop 2) else none

/-- A match of `rSwigPlaceHolder` at the head of the string: the captured
index and the remainder after the match. -/
def matchPlaceholder (cs : List Char) : Option (Nat × List Char) :=
  match parseOpenMark cs with
  | none => none
  | some r1 =>
    match parseSeed r1 with
    | none => none
    | some r2 =>
      match parseDigitRun r2 with
      | none => none
      | some (n, r3) =>
        match parseDashes r3 with
        | none => none
        | some r4 =>
          match parseCloseMark r4 with
          | none => none
          | some r5 => some (n, r5)

/-- `PostRenderEscape.restoreContent`: asserts the slot is set and truthy
(`none` models the thrown `AssertionError`, including for an empty
string, which is falsy in JavaScript), returns its value and nulls it. -/
def restoreContent (cache : List (Option (List Char))) (index : Nat) :
    Option (List Char × List (Option (List Char))) :=
  match cache[index]? with
  | some (some v) => if v.isEmpty then none else some (v, cache.set index none)
  | _ => none

/-- Left-to-right replacement of `rSwigPlaceHolder` matches, as performed
by `String.prototype.replace` with the `restoreContent` callback.
The fuel makes the recursion structural; one unit is spent per step and
each step consumes at least one character. -/
def restoreSwigAux :
    Nat → List (Option (List Char)) → List Char →
      Option (List (Option (List Char)) × List Char)
  | 0, _, _ => none
  | _ + 1, cache, [] => some (cache, [])
  | fuel + 1, cache, c :: cs =>
    match matchPlaceholder (c :: cs) with
    | some (n, rest) =>
      match restoreContent cache n with
      | none => none
      | some (v, cache') =>
        match restoreSwigAux fuel cache' rest with
        | none => none
        | some (cache2, out) => some (cache2, v ++ out)
    | none =>
      match restoreSwigAux fuel cache cs with
      | none => none
      | some (cache2, out) => some (cache2, c :: out)

/-- `PostRenderEscape.restoreAllSwigTags` (with the throwing `assert`
modelled as `none`). -/
def restoreAllSwigTags (cache : List (Option (List Char))) (str : List Char) :
    Option (List (Option (List Char)) × List Char) :=
  restoreSwigAux (str.length + 1) cache str

/-- Whether the scan starting in the given state consumes the whole input
and ends in the plaintext state (every tag properly closed).  Comments
are allowed. -/
def closedFrom : PState → List Char → Bool
  | st, [] => st == .PLAINTEXT
  | .PLAINTEXT, '{' :: '{' :: cs => closedFrom .SWIG_VAR cs
  | .PLAINTEXT, '{' :: '#' :: cs => closedFrom .SWIG_COMMENT cs
  | .PLAINTEXT, '{' :: '%' :: cs => closedFrom .SWIG_TAG cs
  | .PLAINTEXT, _ :: cs => closedFrom .PLAINTEXT cs
  | .SWIG_VAR, '}' :: '}' :: cs => closedFrom .PLAINTEXT cs
  | .SWIG_VAR, _ :: cs => closedFrom .SWIG_VAR cs
  | .SWIG_COMMENT, '#' :: '}' :: cs => closedFrom .PLAINTEXT cs
  | .SWIG_COMMENT, _ :: cs => closedFrom .SWIG_COMMENT cs
  | .SWIG_TAG, '%' :: '}' :: cs => closedFrom .PLAINTEXT cs
  | .SWIG_TAG, _ :: cs => closedFrom .SWIG_TAG cs

/-- Whether the scan starting in the given state never enters the comment
state. -/
def noCommentFrom : PState → List Char → Bool
  | _, [] => true
  | .PLAINTEXT, '{' :: '{' :: cs => noCommentFrom .SWIG_VAR cs
  | .PLAINTEXT, '{' :: '#' :: _ => false
  | .PLAINTEXT, '{' :: '%' :: cs => noCommentFrom .SWIG_TAG cs
  | .PLAINTEXT, _ :: cs => noCommentFrom .PLAINTEXT cs
  | .SWIG_VAR, '}' :: '}' :: cs => noCommentFrom .PLAINTEXT cs
  | .SWIG_VAR, _ :: cs => noCommentFrom .SWIG_VAR cs
  | .SWIG_COMMENT, _ => false
  | .SWIG_TAG, '%' :: '}' :: cs => noCommentFrom .PLAINTEXT cs
  | .SWIG_TAG, _ :: cs => noCommentFrom .SWIG_TAG cs

/-- The text with every comment region deleted, following the scanner's
state transitions; variable and block tags are kept verbatim. -/
def eraseFrom : PState → List Char → List Char
  | _, [] => []
  | .PLAINTEXT, '{' :: '{' :: cs => '{' :: '{' :: eraseFrom .SWIG_VAR cs
  | .PLAINTEXT, '{' :: '#' :: cs => eraseFrom .SWIG_COMMENT cs
  | .PLAINTEXT, '{' :: '%' :: cs => '{' :: '%' :: eraseFrom .SWIG_TAG cs
  | .PLAINTEXT, c :: cs => c :: eraseFrom .PLAINTEXT cs
  | .SWIG_VAR, '}' :: '}' :: cs => '}' :: '}' :: eraseFrom .PLAINTEXT cs
  | .SWIG_VAR, c :: cs => c :: eraseFrom .SWIG_VAR cs
  | .SWIG_COMMENT, '#' :: '}' :: cs => eraseFrom .PLAINTEXT cs
  | .SWIG_COMMENT, _ :: cs => eraseFrom .SWIG_COMMENT cs
  | .SWIG_TAG, '%' :: '}' :: cs => '%' :: '}' :: eraseFrom .PLAINTEXT cs
  | .SWIG_TAG, c :: cs => c :: eraseFrom .SWIG_TAG cs

/-- The scanner with the `isFullTag` branch removed: on closing a block
tag, the buffered text is escaped unconditionally. -/
def scanNC (full : List Char) :
    PState → List Char → List Char → List (List Char) → List (List Char) × List Char
  | _, _, [], cache => (cache, [])
  | .PLAINTEXT, buf, '{' :: '{' :: cs, cache => scanNC full .SWIG_VAR buf cs cache
  | .PLAINTEXT, buf, '{' :: '#' :: cs, cache => scanNC full .SWIG_COMMENT buf cs cache
  | .PLAINTEXT, _, '{' :: '%' :: cs, cache => scanNC full .SWIG_TAG [] cs cache
  | .PLAINTEXT, buf, c :: cs, cache =>
    let r := scanNC full .PLAINTEXT buf cs cache
    (r.1, c :: r.2)
  | .SWIG_VAR, buf, '}' :: '}' :: cs, cache =>
    let ec := escapeContent cache swigFlag ('{' :: '{' :: (buf ++ ['}', '}']))
    let r := scanNC full .PLAINTEXT [] cs ec.1
    (r.1, ec.2 ++ r.2)
  | .SWIG_VAR, buf, c :: cs, cache => scanNC full .SWIG_VAR (buf ++ [c]) cs cache
  | .SWIG_COMMENT, _, '#' :: '}' :: cs, cache => scanNC full .PLAINTEXT [] cs cache
  | .SWIG_COMMENT, buf, _ :: cs, cache => scanNC full .SWIG_COMMENT buf cs cache
  | .SWIG_TAG, buf, '%' :: '}' :: cs, cache =>
    let ec := escapeContent cache swigFlag ('{' :: '%' :: (buf ++ ['%', '}']))
    let r := scanNC full .PLAINTEXT [] cs ec.1
    (r.1, ec.2 ++ r.2)
  | .SWIG_TAG, buf, c :: cs, cache => scanNC full .SWIG_TAG (buf ++ [c]) cs cache

/-- `escapeAllSwigTags` built on the scanner without the `isFullTag`
check. -/
def escapeAllSwigTagsNC (stored : List (List Char)) (str : List Char) :
    List (List Char) × List Char :=
  if swigTagRegexTest str then scanNC str .PLAINTEXT [] str stored else (stored, str)

/-- Rendered output shape of a completed scan: plain chunks interleaved
with placeholders whose indices count up from `m`, then a trailing plain
chunk. -/
def renderOut (m : Nat) : List (List Char) → List Char → List Char
  | [], tr => tr
  | p :: ps, tr => p ++ phSwig m ++ renderOut (m + 1) ps tr

/-- The same shape with each placeholder replaced by its table entry. -/
def renderOrig : List (List Char × List Char) → List Char → List Char
  | [], tr => tr
  | pr :: ps, tr => pr.1 ++ pr.2 ++ renderOrig ps tr

/-- Freedom from the placeholder delimiter character. -/
def noObjRepl (l : List Char) : Prop := ∀ c ∈ l, c ≠ objRepl

instance (l : List Char) : Decidable (noObjRepl l) := by
  unfold noObjRepl; infer_instance

/-- What the restored output of a scan starting in the given state stands
for: the already-consumed opener and buffer, then the comment-erased
remainder. -/
def reconOf : PState → List Char → List Char → List Char
  | .PLAINTEXT, _, cs => eraseFrom .PLAINTEXT cs
  | .SWIG_COMMENT, _, cs => eraseFrom .SWIG_COMMENT cs
  | .SWIG_VAR, buf, cs => '{' :: '{' :: (buf ++ eraseFrom .SWIG_VAR cs)
  | .SWIG_TAG, buf, cs => '{' :: '%' :: (buf ++ eraseFrom .SWIG_TAG cs)

/-- A front-matter metadata value as seen by `prepareFrontMatter`:
a moment, a `Date`, a plain string, or any other value (left alone). -/
inductive FMValue where
  | vMoment (t : Int)
  | vDate (t : Int)
  | vStr (s : List Char)
  | vOther (o : Int)
deriving DecidableEq

/-- The quoting condition of `prepareFrontMatter`:
`jsonMode || item.includes(':') || item.startsWith('#') ||
item.startsWith('!!') || item.includes('{') || item.includes('}') ||
item.includes('[') || item.includes(']') || item.includes(*squote*) ||
item.includes(*dquote*)`. -/
def quoteNeeded (jsonMode : Bool) (s : List Char) : Bool :=
  jsonMode || s.contains ':' || (s.head? == some '#') || (['!', '!'].isPrefixOf s) ||
    s.contains '{' || s.contains '}' || s.contains '[' || s.contains ']' ||
    s.contains squote || s.contains dquote

/-- `item.replace(/"/g, *backslash-dquote*)`: escape every double quote. -/
def escQuotes : List Char → List Char
  | [] => []
  | c :: t => if c = dquote then bslash :: dquote :: escQuotes t else c :: escQuotes t

/-- Wrap in double quotes with internal double quotes escaped. -/
def quoteStr (s : List Char) : List Char :=
  dquote :: (escQuotes s ++ [dquote])

/-- `prepareFrontMatter`: formats moments and dates through the given
formatter and quotes strings that need quoting.  `fmt` stands for the
external `moment` formatting (`YYYY-MM-DD HH:mm:ss` in UTC). -/
def prepareFrontMatter (fmt : Int → List Char) (jsonMode : Bool) :
    List (List Char × FMValue) → List (List Char × FMValue)
  | [] => []
  | (k, v) :: t =>
    (k, match v with
        | .vMoment d => .vStr (fmt d)
        | .vDate d => .vStr (fmt d)
        | .vStr s => if quoteNeeded jsonMode s then .vStr (quoteStr s) else .vStr s
        | .vOther o => .vOther o) :: prepareFrontMatter fmt jsonMode t

/-- The quoting condition as the spec sentence for C5 would have it, after
amendment to match the code: always in JSON mode, and in YAML mode when
the value contains a colon anywhere, starts with a hash, starts with a
double exclamation mark, or contains a brace, bracket or quote
character anywhere. -/
def needsQuoteSpec (jsonMode : Bool) (s : List Char) : Bool :=
  jsonMode || s.contains ':' || (s.head? == some '#') || (['!', '!'].isPrefixOf s) ||
    s.contains '{' || s.contains '}' || s.contains '[' || s.contains ']' ||
    s.contains squote || s.contains dquote

/-- Undo `escQuotes`: turn each backslash-double-quote pair back into a
double quote. -/
def unescQuotes : List Char → List Char
  | [] => []
  | [c] => [c]
  | a :: b :: t =>
    if a = bslash ∧ b = dquote then dquote :: unescQuotes t
    else a :: unescQuotes (b :: t)

/-- Modelled from the spec: reparsing of a double-quoted scalar by the
external YAML/JSON front-matter parser (`js-yaml` / `JSON.parse`, which
are not part of this repository): strip the surrounding double quotes
and unescape the internal ones. -/
def unquoteModel (s : List Char) : Option (List Char) :=
  match s with
  | q :: rest =>
    if q = dquote ∧ rest.getLast? = some dquote then some (unescQuotes rest.dropLast)
    else none
  | _ => none

/-- A parsed front-matter value for the merge step of `_renderScaffold`. -/
inductive JValue where
  | jNull
  | jStr (s : List Char)
  | jNum (n : Int)
  | jBool (b : Bool)
deriving DecidableEq

/-- Property lookup on an object modelled as an association list. -/
def lookupKV (l : List (List Char × JValue)) (k : List Char) : Option JValue :=
  (l.find? (fun kv => kv.1 == k)).map (fun kv => kv.2)

/-- Property assignment `obj[k] = v` on an object modelled as an
association list (replace the binding if present, else append). -/
def setKV : List (List Char × JValue) → List Char → JValue → List (List Char × JValue)
  | [], k, v => [(k, v)]
  | (k', v') :: t, k, v => if k' == k then (k, v) :: t else (k', v') :: setKV t k v

/-- `preservedKeys` from the source. -/
def preservedKeys : List (List Char) :=
  [("title").toList, ("slug").toList, ("path").toList, ("layout").toList,
   ("date").toList, ("content").toList]

/-- `obj[key] == null` in JavaScript: absent, or bound to `null`. -/
def isNullish : Option JValue → Bool
  | none => true
  | some .jNull => true
  | some _ => false

/-- The merge step of `Post._renderScaffold`: for every key of the caller
metadata that is not preserved and is nullish in the parsed front
matter, copy the value in.  The filter is evaluated against the
original object, as `Array.prototype.filter` completes before the
`forEach` mutations. -/
def mergeStep (obj data : List (List Char × JValue)) : List (List Char × JValue) :=
  data.foldl
    (fun acc kv =>
      if !(preservedKeys.contains kv.1) && isNullish (lookupKV obj kv.1) then
        setKV acc kv.1 kv.2
      else acc)
    obj

/-- The draft-matching regex of `publish`:
`^slug(?:[^\/\\]+)` — the item starts with the (slugized) slug followed
by at least one character that is not a slash or backslash. -/
def draftRegexTest (slug item : List Char) : Bool :=
  slug.isPrefixOf item &&
    match item.drop slug.length with
    | [] => false
    | c :: _ => !(c == '/') && !(c == bslash)

/-- The error message thrown by `publish` when no draft matches. -/
def draftNotFoundMsg (slug : List Char) : List Char :=
  ("Draft ").toList ++ [dquote] ++ slug ++ [dquote] ++ (" does not exist.").toList

/-- File-system side effects of the publish chain. -/
inductive FsEffect where
  | listDirE (d : List Char)
  | readFileE (p : List Char)
  | writeFileE (p : List Char)
  | mkdirsE (p : List Char)
  | unlinkE (p : List Char)
  | copyDirE (src dst : List Char)
  | rmdirE (p : List Char)
deriving DecidableEq

/-- Whether an effect writes to the file system. -/
def isWriteEffect : FsEffect → Bool
  | .listDirE _ => false
  | .readFileE _ => false
  | _ => true

/-- `removeExtname`: drop the extension of the path's basename, if any. -/
def removeExtnameModel (p : List Char) : List Char :=
  let rb := (p.reverse.takeWhile (fun c => !(c == '/'))).reverse
  let e := rb.reverse.takeWhile (fun c => !(c == '.'))
  if e.length + 1 < rb.length then p.take (p.length - (e.length + 1)) else p

/-- External collaborators and configuration of the publish chain,
supplied as data: the drafts-directory listing, the resolved new-post
path, the rendered content, and the asset-folder configuration. -/
structure PublishDeps where
  draftDir : List Char
  listing : List (List Char)
  createPath : List Char
  createContent : List Char
  postAssetFolder : Bool
  assetExists : Bool

/-- The publish chain of `Post.publish`, as a result plus an ordered
file-effect trace: list the drafts directory, find the first entry
matching the draft regex; if none, throw the draft-not-found error
before any further step; otherwise read the draft, create the post
(write), delete the draft, and migrate the asset folder when
configured and present. -/
def publishModel (slugize : List Char → List Char) (deps : PublishDeps)
    (rawSlug : List Char) :
    Except (List Char) (List Char × List Char) × List FsEffect :=
  let slug := slugize rawSlug
  match deps.listing.find? (fun item => draftRegexTest slug item) with
  | none => (.error (draftNotFoundMsg slug), [.listDirE deps.draftDir])
  | some item =>
    let src := deps.draftDir ++ '/' :: item
    (.ok (deps.createPath, deps.createContent),
      [.listDirE deps.draftDir, .readFileE src, .writeFileE deps.createPath,
       .unlinkE src] ++
        (if deps.postAssetFolder && deps.assetExists then
          [.copyDirE (removeExtnameModel src) (removeExtnameModel deps.createPath),
           .rmdirE (removeExtnameModel src)]
         else []))

/-- The content source chosen by `Post.render`. -/
inductive ContentSrc where
  | inline (c : List Char)
  | fromFile (p : List Char)
deriving DecidableEq

/-- The error message of `Post.render` when no input is available. -/
def noInputMsg : List Char := ("No input file or string!").toList

/-- The input selection of `Post.render`: explicit inline content
(`data.content != null`) takes priority; else a non-empty source path
is read; else the call is rejected. -/
def renderContentSource (content : Option (List Char)) (source : List Char) :
    Except (List Char) ContentSrc :=
  match content with
  | some c => .ok (.inline c)
  | none => if source.isEmpty then .error noInputMsg else .ok (.fromFile source)

/-! ## Theorems -/

/-- C2: for every escape table, restoring an index that was never produced
(out of range) fails with the modelled `ConsistencyError`, restoring an
index a second time fails on the second call, and a successful
restoration never returns empty text. -/
theorem restoreContent_consistency (cache cache' : List (Option (List Char)))
    (i j : Nat) (v : List Char) (hj : cache.length ≤ j)
    (h : restoreContent cache i = some (v, cache')) :
    restoreContent cache j = none ∧ restoreContent cache' i = none ∧ v ≠ [] := by
  refine ⟨?_, ?_, ?_⟩
  · unfold restoreContent
    rw [List.getElem?_eq_none hj]
  · unfold restoreContent at h ⊢
    rcases hc : cache[i]? with _ | w
    · rw [hc] at h; exact absurd h (by simp)
    · rw [hc] at h
      rcases w with _ | w
      · exact absurd h (by simp)
      · by_cases he : w.isEmpty
        · simp [he] at h
        · simp only [he, if_neg, Bool.false_eq_true, not_false_iff, ite_false] at h
          have hi : i < cache.length := by
            rcases List.getElem?_eq_some.mp hc with ⟨hlt, _⟩
            exact hlt
          have hset : cache' = cache.set i none := by
            have := h
            injection this with h1
            injection h1 with _ h2
            exact h2.symm
          rw [hset, List.getElem?_set_self (by simpa using hi)]
  · unfold restoreContent at h
    rcases hc : cache[i]? with _ | w
    · rw [hc] at h; exact absurd h (by simp)
    · rw [hc] at h
      rcases w with _ | w
      · exact absurd h (by simp)
      · by_cases he : w.isEmpty
        · simp [he] at h
        · simp only [he, Bool.false_eq_true, not_false_iff, ite_false] at h
          have hv : v = w := by
            injection h with h1
            injection h1 with h2 _
            exact h2.symm
          subst hv
          simpa [List.isEmpty_iff] using he

/-- C2 witness: a concrete table with one entry. -/
theorem restoreContent_consistency_witness :
    restoreContent [some (['a'])] 3 = none ∧
      restoreContent [none] 0 = none ∧ (['a'] : List Char) ≠ [] :=
  restoreContent_consistency [some (['a'])] [none] 0 3 ['a'] (by decide) (by decide)

/-- The scanner copies text that contains no tag opener. -/
theorem scan_plain_id (full : List Char) :
    ∀ (cs buf : List Char) (cache : List (List Char)),
      ¬ (['{', '{'] <:+: cs) → ¬ (['{', '#'] <:+: cs) → ¬ (['{', '%'] <:+: cs) →
      scan full .PLAINTEXT buf cs cache = (cache, cs) := by
  intro cs
  induction cs with
  | nil => intro buf cache _ _ _; simp [scan]
  | cons c cs ih =>
    intro buf cache h1 h2 h3
    have h1' : ¬ (['{', '{'] <:+: cs) := fun h => h1 (List.infix_cons h)
    have h2' : ¬ (['{', '#'] <:+: cs) := fun h => h2 (List.infix_cons h)
    have h3' : ¬ (['{', '%'] <:+: cs) := fun h => h3 (List.infix_cons h)
    by_cases hc : c = '{'
    · subst hc
      cases cs with
      | nil => simp [scan]
      | cons d cs' =>
        have hd1 : d ≠ '{' := by
          rintro rfl; exact h1 ⟨[], cs', rfl⟩
        have hd2 : d ≠ '#' := by
          rintro rfl; exact h2 ⟨[], cs', rfl⟩
        have hd3 : d ≠ '%' := by
          rintro rfl; exact h3 ⟨[], cs', rfl⟩
        rw [show scan full .PLAINTEXT buf ('{' :: d :: cs') cache =
              ((scan full .PLAINTEXT buf (d :: cs') cache).1,
                '{' :: (scan full .PLAINTEXT buf (d :: cs') cache).2) from by
          simp [scan, hd1, hd2, hd3]]
        rw [ih buf cache h1' h2' h3']
    · rw [show scan full .PLAINTEXT buf (c :: cs) cache =
            ((scan full .PLAINTEXT buf cs cache).1,
              c :: (scan full .PLAINTEXT buf cs cache).2) from by
        simp [scan, hc]]
      rw [ih buf cache h1' h2' h3']

/-- C3: for every text with no `{{`, `{#` or `{%` opener,
`escapeAllSwigTags` returns the input unchanged and appends nothing to
the escape table. -/
theorem escape_identity_without_tags (cache : List (List Char)) (str : List Char)
    (h1 : ¬ (['{', '{'] <:+: str)) (h2 : ¬ (['{', '#'] <:+: str))
    (h3 : ¬ (['{', '%'] <:+: str)) :
    escapeAllSwigTags cache str = (cache, str) := by
  unfold escapeAllSwigTags
  by_cases ht : swigTagRegexTest str
  · rw [if_pos ht, scan_plain_id str str [] cache h1 h2 h3]
  · rw [if_neg ht]

/-- C3 witness: text with a single-brace group (which passes the cheap
pre-check and is still copied unchanged). -/
theorem escape_identity_without_tags_witness :
    escapeAllSwigTags [] (['a', ' ', '{', 'b', '}', ' ', 'c']) =
      ([], ['a', ' ', '{', 'b', '}', ' ', 'c']) :=
  escape_identity_without_tags [] (['a', ' ', '{', 'b', '}', ' ', 'c'])
    (by decide) (by decide) (by decide)

/-- Lookup after `setKV` at a different key. -/
theorem lookupKV_setKV_ne (l : List (List Char × JValue)) (k k' : List Char)
    (v : JValue) (h : k' ≠ k) : lookupKV (setKV l k' v) k = lookupKV l k := by
  induction l with
  | nil =>
    have hne : (k' == k) = false := by simpa using h
    simp [setKV, lookupKV, List.find?, hne]
  | cons hd t ih =>
    rcases hd with ⟨a, b⟩
    by_cases ha : (a == k') = true
    · have ha' : a = k' := by simpa using ha
      subst ha'
      have hne : (a == k) = false := by simpa using h
      simp [setKV, lookupKV, List.find?, hne]
    · have hanot : (a == k') = false := by simpa using ha
      by_cases hak : (a == k) = true
      · simp [setKV, hanot, lookupKV, List.find?, hak]
      · have hak' : (a == k) = false := by simpa using hak
        simp only [setKV, hanot, Bool.false_eq_true, if_neg, not_false_iff]
        simp only [lookupKV, List.find?, hak'] at ih ⊢
        exact ih

/-- C6: reserved field names supplied in the caller metadata are never
copied into the merged front matter by the merge step: the binding of a
reserved key after the merge is exactly its binding before. -/
theorem merge_excludes_preserved_keys (obj data : List (List Char × JValue))
    (k : List Char) (hk : k ∈ preservedKeys) :
    lookupKV (mergeStep obj data) k = lookupKV obj k := by
  unfold mergeStep
  have main : ∀ (d : List (List Char × JValue)) (acc : List (List Char × JValue)),
      lookupKV
        (d.foldl
          (fun acc kv =>
            if !(preservedKeys.contains kv.1) && isNullish (lookupKV obj kv.1) then
              setKV acc kv.1 kv.2
            else acc)
          acc) k = lookupKV acc k := by
    intro d
    induction d with
    | nil => intro acc; rfl
    | cons kv t ih =>
      intro acc
      rw [List.foldl_cons, ih]
      by_cases hcond :
          (!(preservedKeys.contains kv.1) && isNullish (lookupKV obj kv.1)) = true
      · rw [if_pos hcond]
        have hne : kv.1 ≠ k := by
          rintro rfl
          have : preservedKeys.contains kv.1 = true := List.elem_eq_true_of_mem hk
          rw [this] at hcond
          simp at hcond
        exact lookupKV_setKV_ne acc k kv.1 kv.2 hne
      · rw [if_neg hcond]
  exact main data obj

/-- C6 witness: a reserved key in the metadata does not enter an empty
front-matter object. -/
theorem merge_excludes_preserved_keys_witness :
    lookupKV (mergeStep [] [((("title").toList), JValue.jStr (['x']))])
      (("title").toList) = none := by
  rw [merge_excludes_preserved_keys [] [((("title").toList), JValue.jStr (['x']))]
    (("title").toList) (by decide)]
  rfl

/-- C9: `render` fails with the no-input error exactly when neither inline
content nor a source path is supplied, and inline content takes
priority over a source path. -/
theorem render_no_input_iff (content : Option (List Char)) (source : List Char) :
    ((renderContentSource content source = .error noInputMsg) ↔
      (content = none ∧ source = [])) ∧
    (∀ c, renderContentSource (some c) source = .ok (.inline c)) := by
  constructor
  · cases content with
    | some c => simp [renderContentSource]
    | none =>
      by_cases hs : source.isEmpty
      · have : source = [] := by simpa [List.isEmpty_iff] using hs
        subst this
        simp [renderContentSource]
      · have : source ≠ [] := by simpa [List.isEmpty_iff] using hs
        simp [renderContentSource, hs, this]
  · intro c; rfl

/-- `escQuotes` never produces a leading double quote. -/
theorem escQuotes_head_ne (t : List Char) (d : Char) (rest : List Char)
    (h : escQuotes t = d :: rest) : d ≠ dquote := by
  cases t with
  | nil => exact absurd h (by simp [escQuotes])
  | cons c t' =>
    by_cases hc : c = dquote
    · subst hc
      simp only [escQuotes, if_pos rfl] at h
      injection h with h1 _
      rw [← h1]
      decide
    · simp only [escQuotes, if_neg hc] at h
      injection h with h1 _
      rw [← h1]
      exact hc

/-- `escQuotes` of a nonempty string is nonempty. -/
theorem escQuotes_eq_nil (t : List Char) (h : escQuotes t = []) : t = [] := by
  cases t with
  | nil => rfl
  | cons c t' =>
    by_cases hc : c = dquote
    · subst hc; simp [escQuotes] at h
    · simp [escQuotes, hc] at h

/-- Unescaping undoes quote escaping. -/
theorem unescQuotes_escQuotes (s : List Char) : unescQuotes (escQuotes s) = s := by
  induction s with
  | nil => rfl
  | cons c t ih =>
    by_cases hc : c = dquote
    · subst hc
      rw [show escQuotes (dquote :: t) = bslash :: dquote :: escQuotes t from by
        simp [escQuotes]]
      rw [show unescQuotes (bslash :: dquote :: escQuotes t) =
            dquote :: unescQuotes (escQuotes t) from by
        simp only [unescQuotes]
        simp]
      rw [ih]
    · rw [show escQuotes (c :: t) = c :: escQuotes t from by simp [escQuotes, hc]]
      rcases he : escQuotes t with _ | ⟨d, rest⟩
      · have ht : t = [] := escQuotes_eq_nil t he
        subst ht
        simp [unescQuotes]
      · have hd : d ≠ dquote := escQuotes_head_ne t d rest he
        rw [show unescQuotes (c :: d :: rest) = c :: unescQuotes (d :: rest) from by
          simp only [unescQuotes]
          rw [if_neg (fun hx => hd hx.2)]]
        rw [← he, ih]

/-- Reparsing a quoted scalar gives back the original string. -/
theorem unquoteModel_quoteStr (s : List Char) : unquoteModel (quoteStr s) = some s := by
  have h1 : (escQuotes s ++ [dquote]).getLast? = some dquote := List.getLast?_concat _
  rw [show unquoteModel (quoteStr s) =
        if dquote = dquote ∧ (escQuotes s ++ [dquote]).getLast? = some dquote then
          some (unescQuotes (escQuotes s ++ [dquote]).dropLast)
        else none from rfl]
  rw [if_pos (And.intro rfl h1), List.dropLast_concat, unescQuotes_escQuotes]

/-- C5 counterexample: in YAML mode a value with an embedded hash, such as
`a#b`, is not quoted by `prepareFrontMatter`, although the claim
requires quoting for any embedded `#`. -/
theorem prepareFrontMatter_embedded_hash_cex :
    prepareFrontMatter (fun _ => []) false
        [((("title").toList), FMValue.vStr (['a', '#', 'b']))] =
      [((("title").toList), FMValue.vStr (['a', '#', 'b']))] ∧
    (['a', '#', 'b'] : List Char).contains '#' = true ∧
    quoteStr (['a', '#', 'b']) ≠ ['a', '#', 'b'] := by
  refine ⟨by decide, by decide, by decide⟩

/-- C5 (amended): a plain string value is quoted (with internal double
quotes escaped) exactly when the dialect is JSON mode, or, in YAML
mode, when it contains a colon anywhere, starts with `#`, starts with
`!!`, or contains a brace, bracket, single or double quote anywhere;
quoted values reparse to the original string, and in particular the
YAML-mode value `Hello: World` is quoted and reparses to itself. -/
theorem prepareFrontMatter_quoting_amended (fmt : Int → List Char) (jm : Bool)
    (k s : List Char) (rest : List (List Char × FMValue)) :
    prepareFrontMatter fmt jm ((k, FMValue.vStr s) :: rest) =
      (k, if needsQuoteSpec jm s then FMValue.vStr (quoteStr s) else FMValue.vStr s) ::
        prepareFrontMatter fmt jm rest ∧
    unquoteModel (quoteStr s) = some s ∧
    needsQuoteSpec false (("Hello: World").toList) = true ∧
    prepareFrontMatter fmt false
        [((("title").toList), FMValue.vStr (("Hello: World").toList))] =
      [((("title").toList), FMValue.vStr (quoteStr (("Hello: World").toList)))] ∧
    unquoteModel (quoteStr (("Hello: World").toList)) = some (("Hello: World").toList) := by
  refine ⟨rfl, unquoteModel_quoteStr s, by decide, ?_, unquoteModel_quoteStr _⟩
  simp only [prepareFrontMatter]
  decide

/-- C7: when no drafts-directory entry is prefixed by the slugized slug,
`publish` fails with the draft-not-found error, the message mentions
the slug, and the effect trace contains no file write. -/
theorem publish_draft_not_found (slugize : List Char → List Char)
    (deps : PublishDeps) (raw : List Char)
    (h : ∀ item ∈ deps.listing, ((slugize raw).isPrefixOf item) = false) :
    publishModel slugize deps raw =
      (.error (draftNotFoundMsg (slugize raw)), [.listDirE deps.draftDir]) ∧
    (slugize raw) <:+: draftNotFoundMsg (slugize raw) ∧
    ((publishModel slugize deps raw).2.filter (fun e => isWriteEffect e)) = [] := by
  have hfind : deps.listing.find? (fun item => draftRegexTest (slugize raw) item) = none := by
    rw [List.find?_eq_none]
    intro item hmem
    unfold draftRegexTest
    rw [h item hmem]
    simp
  have h1 : publishModel slugize deps raw =
      (.error (draftNotFoundMsg (slugize raw)), [.listDirE deps.draftDir]) := by
    simp only [publishModel]
    rw [hfind]
  refine ⟨h1, ?_, ?_⟩
  · exact ⟨("Draft ").toList ++ [dquote], [dquote] ++ (" does not exist.").toList, by
      simp [draftNotFoundMsg]⟩
  · rw [h1]
    rfl

/-- C7 witness: a concrete listing with no matching entry. -/
theorem publish_draft_not_found_witness :
    publishModel (fun x => x)
        ⟨[], [("other.md").toList], [], [], false, false⟩ (("my-post").toList) =
      (.error (draftNotFoundMsg (("my-post").toList)), [.listDirE []]) ∧
    (("my-post").toList) <:+: draftNotFoundMsg (("my-post").toList) ∧
    ((publishModel (fun x => x)
        ⟨[], [("other.md").toList], [], [], false, false⟩
        (("my-post").toList)).2.filter (fun e => isWriteEffect e)) = [] :=
  publish_draft_not_found (fun x => x)
    ⟨[], [("other.md").toList], [], [], false, false⟩ (("my-post").toList) (by decide)

/-- The scanner is unchanged when the `isFullTag` check is removed. -/
theorem scan_eq_scanNC (full : List Char) (st : PState) (buf cs : List Char)
    (cache : List (List Char)) : scan full st buf cs cache = scanNC full st buf cs cache := by
  induction st, buf, cs, cache using scan.induct full with
  | case1 st buf cache => simp [scan, scanNC]
  | case2 buf cs cache ih => simp [scan, scanNC, ih]
  | case3 buf cs cache ih => simp [scan, scanNC, ih]
  | case4 buf cs cache ih => simp [scan, scanNC, ih]
  | case5 buf c cs cache h1 h2 h3 ih => simp [scan, scanNC, h1, h2, h3, ih]
  | case6 buf cs cache ec ih => simp [scan, scanNC, ih]
  | case7 buf c cs cache h1 ih => simp [scan, scanNC, h1, ih]
  | case8 buf cs cache ih => simp [scan, scanNC, ih]
  | case9 buf c cs cache h1 ih => simp [scan, scanNC, h1, ih]
  | case10 buf cs cache hinc ec ih => simp [scan, scanNC, hinc, ih]
  | case11 buf cs cache hinc ec ih => simp [scan, scanNC, hinc, ih]
  | case12 buf c cs cache h1 ih => simp [scan, scanNC, h1, ih]

/-- C8: the escaping action on closing a block tag is the same whether or
not a balancing `end<tagname>` exists in the text: `escapeAllSwigTags`
equals its variant with the `isFullTag` check removed. -/
theorem isFullTag_branches_equivalent (stored : List (List Char)) (str : List Char) :
    escapeAllSwigTags stored str = escapeAllSwigTagsNC stored str := by
  unfold escapeAllSwigTags escapeAllSwigTagsNC
  by_cases ht : swigTagRegexTest str
  · rw [if_pos ht, if_pos ht, scan_eq_scanNC]
  · rw [if_neg ht, if_neg ht]

/-- C10: on the input with an unclosed variable tag that still passes the
tag pre-check, the unclosed tag's opening delimiter and everything
buffered after it are silently dropped, so escape followed by restore
does not return the input. -/
theorem escape_lossy_unclosed_tag :
    swigTagRegexTest (['{', 'a', '}', ' ', '{', '{', 'x']) = true ∧
    escapeAllSwigTags [] (['{', 'a', '}', ' ', '{', '{', 'x']) =
      ([], ['{', 'a', '}', ' ']) ∧
    restoreAllSwigTags
        ((escapeAllSwigTags [] (['{', 'a', '}', ' ', '{', '{', 'x'])).1.map some)
        ((escapeAllSwigTags [] (['{', 'a', '}', ' ', '{', '{', 'x'])).2) =
      some ([], ['{', 'a', '}', ' ']) ∧
    (['{', 'a', '}', ' '] : List Char) ≠ ['{', 'a', '}', ' ', '{', '{', 'x'] := by
  refine ⟨by decide, by decide, by decide, by decide⟩

/-- Digit characters are digits and decode to their value. -/
theorem digitChar_spec : ∀ k, k < 10 →
    ((digitChar k).isDigit = true ∧ (digitChar k).toNat = 48 + k) := by decide

/-- Reading a digit run with one more digit appended. -/
theorem digitsToNat_concat (xs : List Char) (c : Char) :
    digitsToNat (xs ++ [c]) = 10 * digitsToNat xs + (c.toNat - 48) := by
  simp [digitsToNat, List.foldl_append]

/-- All characters of the decimal printer output are digits. -/
theorem natDigitsAux_digits :
    ∀ (fuel n : Nat), n < fuel → ∀ c ∈ natDigitsAux fuel n, c.isDigit = true := by
  intro fuel
  induction fuel with
  | zero => intro n h; omega
  | succ fuel ih =>
    intro n _ c hc
    by_cases h10 : n < 10
    · simp only [natDigitsAux, if_pos h10, List.mem_singleton] at hc
      subst hc
      exact (digitChar_spec n h10).1
    · simp only [natDigitsAux, if_neg h10, List.mem_append, List.mem_singleton] at hc
      rcases hc with hc | hc
      · exact ih (n / 10) (by omega) c hc
      · subst hc
        exact (digitChar_spec (n % 10) (by omega)).1

/-- The decimal printer round-trips through the decimal reader. -/
theorem natDigitsAux_toNat :
    ∀ (fuel n : Nat), n < fuel → digitsToNat (natDigitsAux fuel n) = n := by
  intro fuel
  induction fuel with
  | zero => intro n h; omega
  | succ fuel ih =>
    intro n hn
    by_cases h10 : n < 10
    · simp only [natDigitsAux, if_pos h10]
      have := (digitChar_spec n h10).2
      simp [digitsToNat, this]
    · simp only [natDigitsAux, if_neg h10]
      rw [digitsToNat_concat, ih (n / 10) (by omega), (digitChar_spec (n % 10) (by omega)).2]
      omega

/-- `natDigits` decodes to its argument. -/
theorem natDigits_toNat (n : Nat) : digitsToNat (natDigits n) = n :=
  natDigitsAux_toNat (n + 1) n (Nat.lt_succ_self n)

/-- `natDigits` consists of digits. -/
theorem natDigits_digits (n : Nat) : ∀ c ∈ natDigits n, c.isDigit = true :=
  natDigitsAux_digits (n + 1) n (Nat.lt_succ_self n)

/-- `natDigits` is nonempty. -/
theorem natDigits_ne_nil (n : Nat) : natDigits n ≠ [] := by
  unfold natDigits natDigitsAux
  by_cases h10 : n < 10
  · simp [h10]
  · simp [h10]

/-- Taking while the predicate holds on a run stops at the first failing
character. -/
theorem takeWhile_append_stop (p : Char → Bool) :
    ∀ (xs : List Char), (∀ x ∈ xs, p x = true) → ∀ (y : Char), p y = false →
      ∀ (r : List Char), (xs ++ y :: r).takeWhile p = xs := by
  intro xs
  induction xs with
  | nil => intro _ y hy r; simp [List.takeWhile_cons, hy]
  | cons a t ih =>
    intro h y hy r
    have ha : p a = true := h a (List.mem_cons_self a t)
    simp only [List.cons_append, List.takeWhile_cons, ha, if_pos]
    rw [ih (fun x hx => h x (List.mem_cons_of_mem a hx)) y hy r]

/-- `phSwig` decomposed into marker, seed, digits and closer. -/
theorem phSwig_eq (n : Nat) :
    phSwig n = '<' :: (seedLit ++ (natDigits n ++ ['-', '-', '>'])) := by
  simp [phSwig, seedLit]

/-- The placeholder regex matches its own placeholder exactly, whatever
follows. -/
theorem matchPlaceholder_ph (n : Nat) (rest : List Char) :
    matchPlaceholder (phSwig n ++ rest) = some (n, rest) := by
  have hopen : parseOpenMark (phSwig n ++ rest) =
      some (seedLit ++ (natDigits n ++ ('-' :: '-' :: '>' :: rest))) := by
    rw [phSwig_eq]
    unfold parseOpenMark
    rw [if_pos (by simp [List.isPrefixOf_iff_prefix])]
    simp
  have hseed : parseSeed (seedLit ++ (natDigits n ++ ('-' :: '-' :: '>' :: rest))) =
      some (natDigits n ++ ('-' :: '-' :: '>' :: rest)) := by
    unfold parseSeed
    rw [if_pos (by simp [List.isPrefixOf_iff_prefix, List.prefix_append])]
    rw [show (8 : Nat) = seedLit.length from rfl, List.drop_left]
  have htake : (natDigits n ++ ('-' :: '-' :: '>' :: rest)).takeWhile Char.isDigit =
      natDigits n :=
    takeWhile_append_stop Char.isDigit (natDigits n) (natDigits_digits n) '-'
      (by decide) ('-' :: '>' :: rest)
  have hdig : parseDigitRun (natDigits n ++ ('-' :: '-' :: '>' :: rest)) =
      some (n, '-' :: '-' :: '>' :: rest) := by
    unfold parseDigitRun
    simp only [htake]
    rw [if_neg (by simp [List.isEmpty_iff, natDigits_ne_nil n])]
    rw [natDigits_toNat, List.drop_left]
  have hdash : parseDashes ('-' :: '-' :: '>' :: rest) = some ('>' :: rest) := by
    unfold parseDashes
    rw [if_pos (by simp [List.isPrefixOf_iff_prefix])]
    simp
  have hclose : parseCloseMark ('>' :: rest) = some rest := by
    unfold parseCloseMark
    rw [if_pos (by simp [List.isPrefixOf_iff_prefix])]
    simp
  unfold matchPlaceholder
  simp only [hopen, hseed, hdig, hdash, hclose]

/-- A successful placeholder match starts with one of the two opening
markers and is followed directly by the seed literal. -/
theorem matchPlaceholder_some_seed (cs : List Char) (x : Nat × List Char)
    (h : matchPlaceholder cs = some x) :
    (cs.head? = some '<' ∧ seedLit <+: cs.drop 1) ∨
      ((['&', 'l', 't', ';']) <+: cs ∧ seedLit <+: cs.drop 4) := by
  unfold matchPlaceholder at h
  rcases ho : parseOpenMark cs with _ | r1
  · simp only [ho] at h
    exact Option.noConfusion h
  · simp only [ho] at h
    rcases hs : parseSeed r1 with _ | r2
    · simp only [hs] at h
      exact Option.noConfusion h
    · have hpre : seedLit <+: r1 := by
        unfold parseSeed at hs
        by_cases hp : seedLit.isPrefixOf r1
        · exact List.isPrefixOf_iff_prefix.mp hp
        · rw [if_neg hp] at hs; exact absurd hs (by simp)
      unfold parseOpenMark at ho
      by_cases h1 : (['<']).isPrefixOf cs
      · left
        have : ['<'] <+: cs := List.isPrefixOf_iff_prefix.mp h1
        rcases this with ⟨t, ht⟩
        constructor
        · rw [← ht]; rfl
        · rw [if_pos h1] at ho
          injection ho with ho1
          rw [← ho1] at hpre
          exact hpre
      · by_cases h4 : (['&', 'l', 't', ';']).isPrefixOf cs
        · right
          refine ⟨List.isPrefixOf_iff_prefix.mp h4, ?_⟩
          rw [if_neg h1, if_pos h4] at ho
          injection ho with ho1
          rw [← ho1] at hpre
          exact hpre
        · rw [if_neg h1, if_neg h4] at ho
          exact absurd ho (by simp)

/-- The seed literal cannot start inside delimiter-free text and continue
into a following placeholder (or the end of the string). -/
theorem seed_not_prefix_cross (u tail : List Char) (hu : noObjRepl u)
    (ht : tail = [] ∨ ∃ n r, tail = phSwig n ++ r) :
    ¬ (seedLit <+: (u ++ tail)) := by
  intro hpre
  by_cases hlen : 8 ≤ u.length
  · have hs : seedLit <+: u :=
      List.prefix_of_prefix_length_le hpre (List.prefix_append u tail)
        (by simpa [seedLit] using hlen)
    have : objRepl ∈ u := hs.subset (by decide)
    exact hu objRepl this rfl
  · push_neg at hlen
    rcases hpre with ⟨t, hteq⟩
    rcases ht with rfl | ⟨n, r, rfl⟩
    · rw [List.append_nil] at hteq
      have := congrArg List.length hteq
      simp [seedLit] at this
      omega
    · have hvalid : u.length < (u ++ (phSwig n ++ r)).length := by
        rw [phSwig_eq]; simp
      have h8 : u.length < seedLit.length := by simpa [seedLit] using hlen
      have hvalid2 : u.length < (seedLit ++ t).length := by
        simp only [List.length_append]
        omega
      have e1 : (u ++ (phSwig n ++ r))[u.length] = '<' := by
        rw [List.getElem_append_right (le_refl u.length)]
        simp [phSwig_eq]
      have e2 : (seedLit ++ t)[u.length] = seedLit[u.length] :=
        List.getElem_append_left h8
      have e3 : seedLit[u.length] = '<' := by
        have e4 : (seedLit ++ t)[u.length] =
            (u ++ (phSwig n ++ r))[u.length] := List.getElem_of_eq hteq hvalid2
        rw [e2] at e4
        rw [e1] at e4
        exact e4
      have hmem : ('<' : Char) ∈ seedLit := e3 ▸ List.getElem_mem h8
      exact absurd hmem (by decide)

/-- No placeholder match can start inside nonempty delimiter-free text
that is followed by nothing or by a placeholder. -/
theorem matchPlaceholder_none_plain (s tail : List Char) (hs : s ≠ [])
    (hf : noObjRepl s) (ht : tail = [] ∨ ∃ n r, tail = phSwig n ++ r) :
    matchPlaceholder (s ++ tail) = none := by
  rcases hm : matchPlaceholder (s ++ tail) with _ | x
  · rfl
  · exfalso
    rcases matchPlaceholder_some_seed _ x hm with ⟨_, hseed⟩ | ⟨hamp, hseed⟩
    · rcases s with _ | ⟨a, s'⟩
      · exact hs rfl
      · have hdrop : ((a :: s') ++ tail).drop 1 = s' ++ tail := rfl
        rw [hdrop] at hseed
        exact seed_not_prefix_cross s' tail
          (fun c hc => hf c (List.mem_cons_of_mem a hc)) ht hseed
    · by_cases h4 : 4 ≤ s.length
      · rw [List.drop_append_of_le_length h4] at hseed
        exact seed_not_prefix_cross (s.drop 4) tail
          (fun c hc => hf c (List.mem_of_mem_drop hc)) ht hseed
      · push_neg at h4
        rcases hamp with ⟨t2, ht2⟩
        rcases ht with rfl | ⟨n, r, rfl⟩
        · rw [List.append_nil] at ht2
          have := congrArg List.length ht2
          simp at this
          omega
        · rcases s with _ | ⟨a, s1⟩
          · exact hs rfl
          rcases s1 with _ | ⟨b, s2⟩
          · rw [phSwig_eq] at ht2
            simp at ht2
          rcases s2 with _ | ⟨c2, s3⟩
          · rw [phSwig_eq] at ht2
            simp at ht2
          rcases s3 with _ | ⟨d2, s4⟩
          · rw [phSwig_eq] at ht2
            simp at ht2
          · simp at h4
            omega

/-- A placeholder match consumes at least one character. -/
theorem matchPlaceholder_length (cs : List Char) (n : Nat) (rest : List Char)
    (h : matchPlaceholder cs = some (n, rest)) : rest.length < cs.length := by
  unfold matchPlaceholder at h
  rcases ho : parseOpenMark cs with _ | r1
  · simp only [ho] at h; exact Option.noConfusion h
  · simp only [ho] at h
    have hr1 : r1.length < cs.length := by
      unfold parseOpenMark at ho
      by_cases h1 : (['<']).isPrefixOf cs
      · rw [if_pos h1] at ho
        have hle : 1 ≤ cs.length := (List.isPrefixOf_iff_prefix.mp h1).length_le
        injection ho with ho1
        rw [← ho1]
        simp
        omega
      · by_cases h2 : (['&', 'l', 't', ';']).isPrefixOf cs
        · rw [if_neg h1, if_pos h2] at ho
          have hle : 4 ≤ cs.length := (List.isPrefixOf_iff_prefix.mp h2).length_le
          injection ho with ho1
          rw [← ho1]
          simp
          omega
        · rw [if_neg h1, if_neg h2] at ho
          exact Option.noConfusion ho
    rcases hs : parseSeed r1 with _ | r2
    · simp only [hs] at h; exact Option.noConfusion h
    · simp only [hs] at h
      have hr2 : r2.length ≤ r1.length := by
        unfold parseSeed at hs
        by_cases hp : seedLit.isPrefixOf r1
        · rw [if_pos hp] at hs
          injection hs with hs1
          rw [← hs1]
          simp
        · rw [if_neg hp] at hs; exact Option.noConfusion hs
      rcases hd : parseDigitRun r2 with _ | ⟨m, r3⟩
      · simp only [hd] at h; exact Option.noConfusion h
      · simp only [hd] at h
        have hr3 : r3.length ≤ r2.length := by
          unfold parseDigitRun at hd
          by_cases hemp : (r2.takeWhile Char.isDigit).isEmpty
          · rw [if_pos hemp] at hd; exact Option.noConfusion hd
          · rw [if_neg hemp] at hd
            injection hd with hd1
            have : r3 = r2.drop (r2.takeWhile Char.isDigit).length := by
              have := congrArg Prod.snd hd1
              simpa using this.symm
            rw [this]
            simp
        rcases hda : parseDashes r3 with _ | r4
        · simp only [hda] at h; exact Option.noConfusion h
        · simp only [hda] at h
          have hr4 : r4.length ≤ r3.length := by
            unfold parseDashes at hda
            by_cases hp : (['-', '-']).isPrefixOf r3
            · rw [if_pos hp] at hda
              injection hda with hda1
              rw [← hda1]
              simp
            · rw [if_neg hp] at hda; exact Option.noConfusion hda
          rcases hc : parseCloseMark r4 with _ | r5
          · simp only [hc] at h; exact Option.noConfusion h
          · simp only [hc] at h
            have hr5 : r5.length ≤ r4.length := by
              unfold parseCloseMark at hc
              by_cases hp1 : (['>']).isPrefixOf r4
              · rw [if_pos hp1] at hc
                injection hc with hc1
                rw [← hc1]
                simp
              · by_cases hp2 : (['&', 'g', 't', ';']).isPrefixOf r4
                · rw [if_neg hp1, if_pos hp2] at hc
                  injection hc with hc1
                  rw [← hc1]
                  simp
                · rw [if_neg hp1, if_neg hp2] at hc
                  exact Option.noConfusion hc
            have hrest : rest = r5 := by
              injection h with h1
              have := congrArg Prod.snd h1
              simpa using this.symm
            rw [hrest]
            omega

/-- The restore recursion does not depend on the fuel, as long as the fuel
exceeds the input length. -/
theorem restoreSwigAux_fuel :
    ∀ (fuel fuel' : Nat) (cache : List (Option (List Char))) (cs : List Char),
      cs.length < fuel → cs.length < fuel' →
      restoreSwigAux fuel cache cs = restoreSwigAux fuel' cache cs := by
  intro fuel
  induction fuel with
  | zero => intro fuel' cache cs h _; omega
  | succ fuel ih =>
    intro fuel' cache cs h h'
    cases fuel' with
    | zero => omega
    | succ fuel' =>
      cases cs with
      | nil => rfl
      | cons c cs' =>
        rcases hm : matchPlaceholder (c :: cs') with _ | ⟨n, rest⟩
        · simp only [restoreSwigAux, hm]
          rw [ih fuel' cache cs' (by simp at h; omega) (by simp at h'; omega)]
        · have hrest : rest.length < (c :: cs').length :=
            matchPlaceholder_length _ _ _ hm
          simp only [restoreSwigAux, hm]
          rcases hrc : restoreContent cache n with _ | ⟨v, cache2⟩
          · simp only [hrc]
          · simp only [hrc]
            rw [ih fuel' cache2 rest (by simp at hrest h; omega)
              (by simp at hrest h'; omega)]

/-- Restoring delimiter-free text is the identity on text and table. -/
theorem restore_plain_id :
    ∀ (cs : List Char) (fuel : Nat) (cache : List (Option (List Char))),
      cs.length < fuel → noObjRepl cs → restoreSwigAux fuel cache cs = some (cache, cs) := by
  intro cs
  induction cs with
  | nil =>
    intro fuel cache h _
    cases fuel with
    | zero => omega
    | succ f => rfl
  | cons c cs' ih =>
    intro fuel cache h hf
    cases fuel with
    | zero => omega
    | succ f =>
      have hm : matchPlaceholder (c :: cs') = none := by
        have := matchPlaceholder_none_plain (c :: cs') [] (by simp) hf (Or.inl rfl)
        rwa [List.append_nil] at this
      simp only [restoreSwigAux, hm]
      rw [ih f cache (by simp at h; omega) (fun x hx => hf x (List.mem_cons_of_mem c hx))]

/-- Restoring a delimiter-free plain chunk followed by nothing or a
placeholder prepends the chunk to the restoration of the remainder. -/
theorem restore_seg :
    ∀ (p : List Char), noObjRepl p →
      ∀ (tail : List Char) (cache : List (Option (List Char))),
        (tail = [] ∨ ∃ n r, tail = phSwig n ++ r) →
        restoreSwigAux ((p ++ tail).length + 1) cache (p ++ tail) =
          Option.map (fun x => (x.1, p ++ x.2))
            (restoreSwigAux (tail.length + 1) cache tail) := by
  intro p
  induction p with
  | nil =>
    intro _ tail cache _
    simp only [List.nil_append]
    rcases restoreSwigAux (tail.length + 1) cache tail with _ | ⟨c2, out⟩ <;> simp
  | cons c p' ih =>
    intro hf tail cache ht
    have hm : matchPlaceholder (c :: (p' ++ tail)) = none := by
      have := matchPlaceholder_none_plain (c :: p') tail (by simp) hf ht
      simpa using this
    have hL : ((c :: p') ++ tail).length + 1 = ((p' ++ tail).length + 1) + 1 := by simp
    rw [hL, show (c :: p') ++ tail = c :: (p' ++ tail) from rfl]
    simp only [restoreSwigAux, hm]
    rw [ih (fun x hx => hf x (List.mem_cons_of_mem c hx)) tail cache ht]
    rcases restoreSwigAux (tail.length + 1) cache tail with _ | ⟨c2, out⟩ <;> simp

/-- Reading the slot at the boundary of the consumed prefix. -/
theorem getElem_replicate_append (m : Nat) (x : Option (List Char))
    (l : List (Option (List Char))) :
    (List.replicate m (none : Option (List Char)) ++ x :: l)[m]? = some x := by
  rw [List.getElem?_append_right (by simp)]
  simp

/-- Consuming the slot at the boundary of the consumed prefix. -/
theorem set_replicate_append (m : Nat) (x : Option (List Char))
    (l : List (Option (List Char))) :
    (List.replicate m (none : Option (List Char)) ++ x :: l).set m none =
      List.replicate (m + 1) (none : Option (List Char)) ++ l := by
  induction m with
  | zero => simp
  | succ m ih =>
    rw [List.replicate_succ, List.cons_append, List.set_cons_succ, ih]
    simp [List.replicate_succ]

/-- Restoring the rendered output of a scan, whose placeholder indices
count up from `m` and whose table has the first `m` entries already
consumed, consumes the remaining entries in order and yields the
original interleaving. -/
theorem restore_out :
    ∀ (pe : List (List Char × List Char)) (m : Nat) (tr : List Char),
      (∀ pr ∈ pe, noObjRepl pr.1 ∧ pr.2 ≠ []) → noObjRepl tr →
      restoreSwigAux ((renderOut m (pe.map Prod.fst) tr).length + 1)
          (List.replicate m none ++ (pe.map Prod.snd).map some)
          (renderOut m (pe.map Prod.fst) tr) =
        some (List.replicate (m + pe.length) none, renderOrig pe tr) := by
  intro pe
  induction pe with
  | nil =>
    intro m tr _ htr
    simp only [List.map_nil, renderOut, renderOrig, List.append_nil, List.length_nil,
      Nat.add_zero]
    exact restore_plain_id tr _ _ (Nat.lt_succ_self _) htr
  | cons pr pe' ih =>
    rcases pr with ⟨p, e⟩
    intro m tr hpe htr
    have hp : noObjRepl p := (hpe (p, e) (List.mem_cons_self _ _)).1
    have he : e ≠ [] := (hpe (p, e) (List.mem_cons_self _ _)).2
    have hpe' : ∀ pr ∈ pe', noObjRepl pr.1 ∧ pr.2 ≠ [] :=
      fun pr hpr => hpe pr (List.mem_cons_of_mem _ hpr)
    simp only [List.map_cons, renderOut, renderOrig]
    rw [List.append_assoc]
    rw [restore_seg p hp
      (phSwig m ++ renderOut (m + 1) (pe'.map Prod.fst) tr)
      (List.replicate m none ++ some e :: (pe'.map Prod.snd).map some)
      (Or.inr ⟨m, renderOut (m + 1) (pe'.map Prod.fst) tr, rfl⟩)]
    have hcons : phSwig m ++ renderOut (m + 1) (pe'.map Prod.fst) tr =
        '<' :: ((seedLit ++ (natDigits m ++ ['-', '-', '>'])) ++
          renderOut (m + 1) (pe'.map Prod.fst) tr) := by
      rw [phSwig_eq]; rfl
    have hfuel : (phSwig m ++ renderOut (m + 1) (pe'.map Prod.fst) tr).length + 1 =
        (((seedLit ++ (natDigits m ++ ['-', '-', '>'])) ++
          renderOut (m + 1) (pe'.map Prod.fst) tr).length + 1) + 1 := by
      rw [hcons]; simp
    rw [hfuel, hcons]
    simp only [restoreSwigAux]
    rw [show matchPlaceholder ('<' :: ((seedLit ++ (natDigits m ++ ['-', '-', '>'])) ++
          renderOut (m + 1) (pe'.map Prod.fst) tr)) =
        some (m, renderOut (m + 1) (pe'.map Prod.fst) tr) from by
      rw [← hcons]; exact matchPlaceholder_ph m _]
    have hrc : restoreContent
        (List.replicate m none ++ some e :: (pe'.map Prod.snd).map some) m =
        some (e, List.replicate (m + 1) none ++ (pe'.map Prod.snd).map some) := by
      unfold restoreContent
      rw [getElem_replicate_append]
      simp only [show e.isEmpty = false from by simpa [List.isEmpty_iff] using he,
        Bool.false_eq_true, if_false]
      rw [set_replicate_append]
    simp only [hrc]
    rw [restoreSwigAux_fuel _ ((renderOut (m + 1) (pe'.map Prod.fst) tr).length + 1)
      _ _ (by simp [seedLit]; omega) (Nat.lt_succ_self _)]
    rw [ih (m + 1) tr hpe' htr]
    simp only [Option.map_some]
    rw [show m + 1 + pe'.length = m + (pe'.length + 1) from by omega]
    simp

/-- The cache side of `escapeContent`. -/
theorem escapeContent_fst (cache : List (List Char)) (s : List Char) :
    (escapeContent cache swigFlag s).1 = cache ++ [s] := rfl

/-- The text side of `escapeContent` with the `swig` flag is the swig
placeholder at the pre-push index. -/
theorem escapeContent_snd (cache : List (List Char)) (s : List Char) :
    (escapeContent cache swigFlag s).2 = phSwig cache.length := by
  simp [escapeContent, phSwig, swigFlag]

/-- Structure of a completed scan: the output is plain chunks (substrings
of the input, hence delimiter-free under the hypothesis) interleaved
with placeholders indexed consecutively from the incoming cache length;
the corresponding table entries, put back in place of the placeholders,
spell the comment-erased remaining input. -/
theorem scan_struct (full : List Char) (st : PState) (buf cs : List Char)
    (cache : List (List Char)) :
    closedFrom st cs = true → (st = .PLAINTEXT → buf = []) → noObjRepl cs →
    ∃ (pe : List (List Char × List Char)) (tr : List Char),
      scan full st buf cs cache =
        (cache ++ pe.map Prod.snd, renderOut cache.length (pe.map Prod.fst) tr) ∧
      (∀ pr ∈ pe, noObjRepl pr.1 ∧ pr.2 ≠ [] ∧
        ((∃ b, pr.2 = '{' :: '{' :: b) ∨ (∃ b, pr.2 = '{' :: '%' :: b))) ∧ noObjRepl tr ∧
      renderOrig pe tr = reconOf st buf cs := by
  induction st, buf, cs, cache using scan.induct full with
  | case1 st buf cache =>
    intro hclosed _ _
    have hst : st = .PLAINTEXT := by
      cases st with
      | PLAINTEXT => rfl
      | SWIG_VAR => exact absurd hclosed (by decide)
      | SWIG_COMMENT => exact absurd hclosed (by decide)
      | SWIG_TAG => exact absurd hclosed (by decide)
    subst hst
    exact ⟨[], [], by simp [scan, renderOut], by simp, by simp [noObjRepl],
      by simp [renderOrig, reconOf, eraseFrom]⟩
  | case2 buf cs cache ih =>
    intro hclosed hbuf hf
    have hbuf' : buf = [] := hbuf rfl
    subst hbuf'
    simp only [closedFrom] at hclosed
    rcases ih hclosed (by intro h; cases h) (fun c hc => hf c (by simp [hc])) with
      ⟨pe, tr, hscan, hcond, htr, horig⟩
    refine ⟨pe, tr, ?_, hcond, htr, ?_⟩
    · rw [show scan full .PLAINTEXT [] ('{' :: '{' :: cs) cache =
          scan full .SWIG_VAR [] cs cache from by simp [scan]]
      exact hscan
    · rw [horig]
      simp [reconOf, eraseFrom]
  | case3 buf cs cache ih =>
    intro hclosed _ hf
    simp only [closedFrom] at hclosed
    rcases ih hclosed (by intro h; cases h) (fun c hc => hf c (by simp [hc])) with
      ⟨pe, tr, hscan, hcond, htr, horig⟩
    refine ⟨pe, tr, ?_, hcond, htr, ?_⟩
    · rw [show scan full .PLAINTEXT buf ('{' :: '#' :: cs) cache =
          scan full .SWIG_COMMENT buf cs cache from by simp [scan]]
      exact hscan
    · rw [horig]
      simp [reconOf, eraseFrom]
  | case4 buf cs cache ih =>
    intro hclosed _ hf
    simp only [closedFrom] at hclosed
    rcases ih hclosed (by intro h; cases h) (fun c hc => hf c (by simp [hc])) with
      ⟨pe, tr, hscan, hcond, htr, horig⟩
    refine ⟨pe, tr, ?_, hcond, htr, ?_⟩
    · rw [show scan full .PLAINTEXT buf ('{' :: '%' :: cs) cache =
          scan full .SWIG_TAG [] cs cache from by simp [scan]]
      exact hscan
    · rw [horig]
      simp [reconOf, eraseFrom]
  | case5 buf c cs cache h1 h2 h3 ih =>
    intro hclosed hbuf hf
    have hclosed' : closedFrom .PLAINTEXT cs = true := by
      simpa [closedFrom, h1, h2, h3] using hclosed
    rcases ih hclosed' hbuf (fun x hx => hf x (by simp [hx])) with
      ⟨pe, tr, hscan, hcond, htr, horig⟩
    have hc : c ∈ c :: cs := List.mem_cons_self c cs
    have hstep : scan full .PLAINTEXT buf (c :: cs) cache =
        ((scan full .PLAINTEXT buf cs cache).1,
          c :: (scan full .PLAINTEXT buf cs cache).2) := by
      simp [scan, h1, h2, h3]
    have herase : eraseFrom .PLAINTEXT (c :: cs) = c :: eraseFrom .PLAINTEXT cs := by
      simp [eraseFrom, h1, h2, h3]
    rcases pe with _ | ⟨⟨p, e⟩, pe'⟩
    · refine ⟨[], c :: tr, ?_, by simp, ?_, ?_⟩
      · rw [hstep, hscan]
        simp [renderOut]
      · intro x hx
        rcases List.mem_cons.mp hx with rfl | hx
        · exact hf x hc
        · exact htr x hx
      · simp only [renderOrig] at horig ⊢
        rw [horig]
        rw [show reconOf .PLAINTEXT buf (c :: cs) = c :: eraseFrom .PLAINTEXT cs from by
          simp [reconOf, herase]]
        simp [reconOf]
    · refine ⟨((c :: p), e) :: pe', tr, ?_, ?_, htr, ?_⟩
      · rw [hstep, hscan]
        simp [renderOut, List.cons_append]
      · intro pr hpr
        rcases List.mem_cons.mp hpr with rfl | hpr
        · constructor
          · intro x hx
            rcases List.mem_cons.mp hx with rfl | hx
            · exact hf x hc
            · exact (hcond (p, e) (List.mem_cons_self _ _)).1 x hx
          · exact (hcond (p, e) (List.mem_cons_self _ _)).2
        · exact hcond pr (List.mem_cons_of_mem _ hpr)
      · simp only [renderOrig] at horig ⊢
        rw [show reconOf .PLAINTEXT buf (c :: cs) = c :: eraseFrom .PLAINTEXT cs from by
          simp [reconOf, herase]]
        rw [show reconOf .PLAINTEXT buf cs = eraseFrom .PLAINTEXT cs from rfl] at horig
        rw [← horig]
        simp [List.cons_append]
  | case6 buf cs cache ec ih =>
    intro hclosed _ hf
    unfold ec at ih
    simp only [escapeContent_fst] at ih
    simp only [closedFrom] at hclosed
    rcases ih hclosed (by intro _; trivial) (fun c hc => hf c (by simp [hc])) with
      ⟨pe, tr, hscan, hcond, htr, horig⟩
    refine ⟨([], '{' :: '{' :: (buf ++ ['}', '}'])) :: pe, tr, ?_, ?_, htr, ?_⟩
    · rw [show scan full .SWIG_VAR buf ('}' :: '}' :: cs) cache =
          ((scan full .PLAINTEXT [] cs
              (cache ++ ['{' :: '{' :: (buf ++ ['}', '}'])])).1,
            phSwig cache.length ++
              (scan full .PLAINTEXT [] cs
                (cache ++ ['{' :: '{' :: (buf ++ ['}', '}'])])).2) from by
        simp [scan, escapeContent_fst, escapeContent_snd]]
      rw [hscan]
      simp [renderOut, List.append_assoc]
    · intro pr hpr
      rcases List.mem_cons.mp hpr with rfl | hpr
      · exact ⟨by simp [noObjRepl], by simp, Or.inl ⟨buf ++ ['}', '}'], rfl⟩⟩
      · exact hcond pr hpr
    · simp only [renderOrig, List.nil_append]
      rw [horig]
      simp [reconOf, eraseFrom, List.append_assoc]
  | case7 buf c cs cache h1 ih =>
    intro hclosed _ hf
    have hclosed' : closedFrom .SWIG_VAR cs = true := by
      simpa [closedFrom, h1] using hclosed
    rcases ih hclosed' (by intro h; cases h) (fun x hx => hf x (by simp [hx])) with
      ⟨pe, tr, hscan, hcond, htr, horig⟩
    refine ⟨pe, tr, ?_, hcond, htr, ?_⟩
    · rw [show scan full .SWIG_VAR buf (c :: cs) cache =
          scan full .SWIG_VAR (buf ++ [c]) cs cache from by simp [scan, h1]]
      exact hscan
    · rw [horig]
      have herase : eraseFrom .SWIG_VAR (c :: cs) = c :: eraseFrom .SWIG_VAR cs := by
        simp [eraseFrom, h1]
      simp [reconOf, herase, List.append_assoc]
  | case8 buf cs cache ih =>
    intro hclosed _ hf
    simp only [closedFrom] at hclosed
    rcases ih hclosed (fun _ => rfl) (fun c hc => hf c (by simp [hc])) with
      ⟨pe, tr, hscan, hcond, htr, horig⟩
    refine ⟨pe, tr, ?_, hcond, htr, ?_⟩
    · rw [show scan full .SWIG_COMMENT buf ('#' :: '}' :: cs) cache =
          scan full .PLAINTEXT [] cs cache from by simp [scan]]
      exact hscan
    · rw [horig]
      simp [reconOf, eraseFrom]
  | case9 buf c cs cache h1 ih =>
    intro hclosed _ hf
    have hclosed' : closedFrom .SWIG_COMMENT cs = true := by
      simpa [closedFrom, h1] using hclosed
    rcases ih hclosed' (by intro h; cases h) (fun x hx => hf x (by simp [hx])) with
      ⟨pe, tr, hscan, hcond, htr, horig⟩
    refine ⟨pe, tr, ?_, hcond, htr, ?_⟩
    · rw [show scan full .SWIG_COMMENT buf (c :: cs) cache =
          scan full .SWIG_COMMENT buf cs cache from by simp [scan, h1]]
      exact hscan
    · rw [horig]
      have herase : eraseFrom .SWIG_COMMENT (c :: cs) = eraseFrom .SWIG_COMMENT cs := by
        simp [eraseFrom, h1]
      simp [reconOf, herase]
  | case10 buf cs cache hinc ec ih =>
    intro hclosed _ hf
    unfold ec at ih
    simp only [escapeContent_fst] at ih
    simp only [closedFrom] at hclosed
    rcases ih hclosed (by intro _; trivial) (fun c hc => hf c (by simp [hc])) with
      ⟨pe, tr, hscan, hcond, htr, horig⟩
    refine ⟨([], '{' :: '%' :: (buf ++ ['%', '}'])) :: pe, tr, ?_, ?_, htr, ?_⟩
    · rw [show scan full .SWIG_TAG buf ('%' :: '}' :: cs) cache =
          ((scan full .PLAINTEXT [] cs
              (cache ++ ['{' :: '%' :: (buf ++ ['%', '}'])])).1,
            phSwig cache.length ++
              (scan full .PLAINTEXT [] cs
                (cache ++ ['{' :: '%' :: (buf ++ ['%', '}'])])).2) from by
        simp [scan, hinc, escapeContent_fst, escapeContent_snd]]
      rw [hscan]
      simp [renderOut, List.append_assoc]
    · intro pr hpr
      rcases List.mem_cons.mp hpr with rfl | hpr
      · exact ⟨by simp [noObjRepl], by simp, Or.inr ⟨buf ++ ['%', '}'], rfl⟩⟩
      · exact hcond pr hpr
    · simp only [renderOrig, List.nil_append]
      rw [horig]
      simp [reconOf, eraseFrom, List.append_assoc]
  | case11 buf cs cache hinc ec ih =>
    intro hclosed _ hf
    unfold ec at ih
    simp only [escapeContent_fst] at ih
    simp only [closedFrom] at hclosed
    rcases ih hclosed (by intro _; trivial) (fun c hc => hf c (by simp [hc])) with
      ⟨pe, tr, hscan, hcond, htr, horig⟩
    refine ⟨([], '{' :: '%' :: (buf ++ ['%', '}'])) :: pe, tr, ?_, ?_, htr, ?_⟩
    · rw [show scan full .SWIG_TAG buf ('%' :: '}' :: cs) cache =
          ((scan full .PLAINTEXT [] cs
              (cache ++ ['{' :: '%' :: (buf ++ ['%', '}'])])).1,
            phSwig cache.length ++
              (scan full .PLAINTEXT [] cs
                (cache ++ ['{' :: '%' :: (buf ++ ['%', '}'])])).2) from by
        simp [scan, hinc, escapeContent_fst, escapeContent_snd]]
      rw [hscan]
      simp [renderOut, List.append_assoc]
    · intro pr hpr
      rcases List.mem_cons.mp hpr with rfl | hpr
      · exact ⟨by simp [noObjRepl], by simp, Or.inr ⟨buf ++ ['%', '}'], rfl⟩⟩
      · exact hcond pr hpr
    · simp only [renderOrig, List.nil_append]
      rw [horig]
      simp [reconOf, eraseFrom, List.append_assoc]
  | case12 buf c cs cache h1 ih =>
    intro hclosed _ hf
    have hclosed' : closedFrom .SWIG_TAG cs = true := by
      simpa [closedFrom, h1] using hclosed
    rcases ih hclosed' (by intro h; cases h) (fun x hx => hf x (by simp [hx])) with
      ⟨pe, tr, hscan, hcond, htr, horig⟩
    refine ⟨pe, tr, ?_, hcond, htr, ?_⟩
    · rw [show scan full .SWIG_TAG buf (c :: cs) cache =
          scan full .SWIG_TAG (buf ++ [c]) cs cache from by simp [scan, h1]]
      exact hscan
    · rw [horig]
      have herase : eraseFrom .SWIG_TAG (c :: cs) = c :: eraseFrom .SWIG_TAG cs := by
        simp [eraseFrom, h1]
      simp [reconOf, herase, List.append_assoc]

/-- When no comment region is entered, erasing comments is the identity. -/
theorem eraseFrom_id (st : PState) (cs : List Char) :
    noCommentFrom st cs = true → eraseFrom st cs = cs := by
  induction st, cs using eraseFrom.induct with
  | case1 st => intro _; cases st <;> simp [eraseFrom]
  | case2 cs ih =>
    intro h
    simp only [noCommentFrom] at h
    simp [eraseFrom, ih h]
  | case3 cs =>
    intro h
    simp [noCommentFrom] at h
  | case4 cs ih =>
    intro h
    simp only [noCommentFrom] at h
    simp [eraseFrom, ih h]
  | case5 c cs h1 h2 h3 ih =>
    intro h
    have h' : noCommentFrom .PLAINTEXT cs = true := by
      simpa [noCommentFrom, h1, h2, h3] using h
    simp [eraseFrom, h1, h2, h3, ih h']
  | case6 cs ih =>
    intro h
    simp only [noCommentFrom] at h
    simp [eraseFrom, ih h]
  | case7 c cs h1 ih =>
    intro h
    have h' : noCommentFrom .SWIG_VAR cs = true := by
      simpa [noCommentFrom, h1] using h
    simp [eraseFrom, h1, ih h']
  | case8 cs =>
    intro h
    simp [noCommentFrom] at h
  | case9 c cs h1 =>
    intro h
    simp [noCommentFrom] at h
  | case10 cs ih =>
    intro h
    simp only [noCommentFrom] at h
    simp [eraseFrom, ih h]
  | case11 c cs h1 ih =>
    intro h
    have h' : noCommentFrom .SWIG_TAG cs = true := by
      simpa [noCommentFrom, h1] using h
    simp [eraseFrom, h1, ih h']

/-- C1 (amended): for text containing a `{{` variable opener, with all
tags properly closed, no comment tag begun, and no occurrence of the
placeholder delimiter `U+FFFC`, restoring the escaped text with the
same table yields the original text (and consumes every entry). -/
theorem swig_escape_restore_roundtrip (str : List Char)
    (_hvar : ['{', '{'] <:+: str)
    (hclosed : closedFrom .PLAINTEXT str = true)
    (hnc : noCommentFrom .PLAINTEXT str = true)
    (hf : noObjRepl str) :
    restoreAllSwigTags ((escapeAllSwigTags [] str).1.map some)
        ((escapeAllSwigTags [] str).2) =
      some (List.replicate (escapeAllSwigTags [] str).1.length none, str) := by
  unfold escapeAllSwigTags
  by_cases ht : swigTagRegexTest str
  · rw [if_pos ht]
    rcases scan_struct str .PLAINTEXT [] str [] hclosed (fun _ => rfl) hf with
      ⟨pe, tr, hscan, hcond, htr, horig⟩
    rw [hscan]
    simp only [List.nil_append, List.length_nil]
    unfold restoreAllSwigTags
    have hro := restore_out pe 0 tr
      (fun pr hpr => ⟨(hcond pr hpr).1, (hcond pr hpr).2.1⟩) htr
    simp only [List.replicate, List.nil_append, Nat.zero_add] at hro
    rw [hro]
    rw [horig]
    rw [show reconOf .PLAINTEXT [] str = eraseFrom .PLAINTEXT str from rfl,
      eraseFrom_id _ _ hnc]
    simp
  · rw [if_neg ht]
    unfold restoreAllSwigTags
    simp only [List.map_nil]
    rw [restore_plain_id str _ [] (Nat.lt_succ_self _) hf]
    simp

/-- C1 witness: a concrete round trip through a variable tag. -/
theorem swig_escape_restore_roundtrip_witness :
    restoreAllSwigTags
        ((escapeAllSwigTags [] (['a', ' ', '{', '{', 'x', '}', '}', ' ', 'b'])).1.map some)
        ((escapeAllSwigTags [] (['a', ' ', '{', '{', 'x', '}', '}', ' ', 'b'])).2) =
      some (List.replicate
          (escapeAllSwigTags [] (['a', ' ', '{', '{', 'x', '}', '}', ' ', 'b'])).1.length
          none,
        ['a', ' ', '{', '{', 'x', '}', '}', ' ', 'b']) :=
  swig_escape_restore_roundtrip (['a', ' ', '{', '{', 'x', '}', '}', ' ', 'b'])
    (by decide) (by decide) (by decide) (by decide)

/-- C1 counterexample: the text `{{x}} {#c#}` contains a well-formed
variable tag and every tag (including the comment) is properly closed,
yet escape followed by restore drops the comment and does not return
the input. -/
theorem swig_roundtrip_drops_comment_cex :
    (['{', '{'] <:+: ['{', '{', 'x', '}', '}', ' ', '{', '#', 'c', '#', '}']) ∧
    closedFrom .PLAINTEXT (['{', '{', 'x', '}', '}', ' ', '{', '#', 'c', '#', '}']) = true ∧
    restoreAllSwigTags
        ((escapeAllSwigTags []
            (['{', '{', 'x', '}', '}', ' ', '{', '#', 'c', '#', '}'])).1.map some)
        ((escapeAllSwigTags []
            (['{', '{', 'x', '}', '}', ' ', '{', '#', 'c', '#', '}'])).2) =
      some ([none], ['{', '{', 'x', '}', '}', ' ']) ∧
    (['{', '{', 'x', '}', '}', ' '] : List Char) ≠
      ['{', '{', 'x', '}', '}', ' ', '{', '#', 'c', '#', '}'] := by
  refine ⟨by decide, by decide, by decide, by decide⟩

/-- Scanning a properly closed text that does not end in `{`, followed by
more text, first consumes the closed part exactly as it would alone:
closedness composes over such a prefix. -/
theorem closedFrom_append (st : PState) (pre : List Char) :
    closedFrom st pre = true → pre.getLast? ≠ some '{' →
    ∀ rest, closedFrom st (pre ++ rest) = closedFrom .PLAINTEXT rest := by
  induction st, pre using closedFrom.induct with
  | case1 st =>
    intro hclosed _ rest
    have hst : st = .PLAINTEXT := by
      cases st with
      | PLAINTEXT => rfl
      | SWIG_VAR => exact absurd hclosed (by decide)
      | SWIG_COMMENT => exact absurd hclosed (by decide)
      | SWIG_TAG => exact absurd hclosed (by decide)
    subst hst
    rfl
  | case2 cs ih =>
    intro hclosed hlast rest
    simp only [closedFrom] at hclosed
    rcases cs with _ | ⟨d, cs'⟩
    · exact absurd hclosed (by decide)
    · have hlast' : (d :: cs').getLast? ≠ some '{' := by
        rwa [List.getLast?_cons_cons, List.getLast?_cons_cons] at hlast
      rw [show ('{' :: '{' :: (d :: cs')) ++ rest = '{' :: '{' :: ((d :: cs') ++ rest)
        from rfl]
      rw [show closedFrom .PLAINTEXT ('{' :: '{' :: ((d :: cs') ++ rest)) =
          closedFrom .SWIG_VAR ((d :: cs') ++ rest) from by simp [closedFrom]]
      exact ih hclosed hlast' rest
  | case3 cs ih =>
    intro hclosed hlast rest
    simp only [closedFrom] at hclosed
    rcases cs with _ | ⟨d, cs'⟩
    · exact absurd hclosed (by decide)
    · have hlast' : (d :: cs').getLast? ≠ some '{' := by
        rwa [List.getLast?_cons_cons, List.getLast?_cons_cons] at hlast
      rw [show ('{' :: '#' :: (d :: cs')) ++ rest = '{' :: '#' :: ((d :: cs') ++ rest)
        from rfl]
      rw [show closedFrom .PLAINTEXT ('{' :: '#' :: ((d :: cs') ++ rest)) =
          closedFrom .SWIG_COMMENT ((d :: cs') ++ rest) from by simp [closedFrom]]
      exact ih hclosed hlast' rest
  | case4 cs ih =>
    intro hclosed hlast rest
    simp only [closedFrom] at hclosed
    rcases cs with _ | ⟨d, cs'⟩
    · exact absurd hclosed (by decide)
    · have hlast' : (d :: cs').getLast? ≠ some '{' := by
        rwa [List.getLast?_cons_cons, List.getLast?_cons_cons] at hlast
      rw [show ('{' :: '%' :: (d :: cs')) ++ rest = '{' :: '%' :: ((d :: cs') ++ rest)
        from rfl]
      rw [show closedFrom .PLAINTEXT ('{' :: '%' :: ((d :: cs') ++ rest)) =
          closedFrom .SWIG_TAG ((d :: cs') ++ rest) from by simp [closedFrom]]
      exact ih hclosed hlast' rest
  | case5 c cs h1 h2 h3 ih =>
    intro hclosed hlast rest
    have hclosed' : closedFrom .PLAINTEXT cs = true := by
      simpa [closedFrom, h1, h2, h3] using hclosed
    rcases cs with _ | ⟨d, cs'⟩
    · have hcne : c ≠ '{' := by
        intro h
        subst h
        exact hlast (by simp)
      simp [closedFrom, hcne]
    · have hlast' : (d :: cs').getLast? ≠ some '{' := by
        rwa [List.getLast?_cons_cons] at hlast
      have hstep : closedFrom .PLAINTEXT ((c :: d :: cs') ++ rest) =
          closedFrom .PLAINTEXT ((d :: cs') ++ rest) := by
        by_cases hcc : c = '{'
        · subst hcc
          have hd1 : d ≠ '{' := fun hd => h1 cs' rfl (by rw [hd])
          have hd2 : d ≠ '#' := fun hd => h2 cs' rfl (by rw [hd])
          have hd3 : d ≠ '%' := fun hd => h3 cs' rfl (by rw [hd])
          simp [closedFrom, hd1, hd2, hd3]
        · simp [closedFrom, hcc]
      rw [hstep]
      exact ih hclosed' hlast' rest
  | case6 cs ih =>
    intro hclosed hlast rest
    simp only [closedFrom] at hclosed
    have hlast' : cs.getLast? ≠ some '{' := by
      rcases cs with _ | ⟨d, cs'⟩
      · simp
      · rwa [List.getLast?_cons_cons, List.getLast?_cons_cons] at hlast
    rw [show ('}' :: '}' :: cs) ++ rest = '}' :: '}' :: (cs ++ rest) from rfl]
    rw [show closedFrom .SWIG_VAR ('}' :: '}' :: (cs ++ rest)) =
        closedFrom .PLAINTEXT (cs ++ rest) from by simp [closedFrom]]
    exact ih hclosed hlast' rest
  | case7 c cs h1 ih =>
    intro hclosed hlast rest
    rcases cs with _ | ⟨d, cs'⟩
    · simp [closedFrom] at hclosed
      exact absurd hclosed (by decide)
    · have hclosed' : closedFrom .SWIG_VAR (d :: cs') = true := by
        simpa [closedFrom, h1] using hclosed
      have hlast' : (d :: cs').getLast? ≠ some '{' := by
        rwa [List.getLast?_cons_cons] at hlast
      have hstep : closedFrom .SWIG_VAR ((c :: d :: cs') ++ rest) =
          closedFrom .SWIG_VAR ((d :: cs') ++ rest) := by
        by_cases hcc : c = '}'
        · subst hcc
          have hd : d ≠ '}' := fun hd => h1 cs' rfl (by rw [hd])
          simp [closedFrom, hd]
        · simp [closedFrom, hcc]
      rw [hstep]
      exact ih hclosed' hlast' rest
  | case8 cs ih =>
    intro hclosed hlast rest
    simp only [closedFrom] at hclosed
    have hlast' : cs.getLast? ≠ some '{' := by
      rcases cs with _ | ⟨d, cs'⟩
      · simp
      · rwa [List.getLast?_cons_cons, List.getLast?_cons_cons] at hlast
    rw [show ('#' :: '}' :: cs) ++ rest = '#' :: '}' :: (cs ++ rest) from rfl]
    rw [show closedFrom .SWIG_COMMENT ('#' :: '}' :: (cs ++ rest)) =
        closedFrom .PLAINTEXT (cs ++ rest) from by simp [closedFrom]]
    exact ih hclosed hlast' rest
  | case9 c cs h1 ih =>
    intro hclosed hlast rest
    rcases cs with _ | ⟨d, cs'⟩
    · simp [closedFrom] at hclosed
      exact absurd hclosed (by decide)
    · have hclosed' : closedFrom .SWIG_COMMENT (d :: cs') = true := by
        simpa [closedFrom, h1] using hclosed
      have hlast' : (d :: cs').getLast? ≠ some '{' := by
        rwa [List.getLast?_cons_cons] at hlast
      have hstep : closedFrom .SWIG_COMMENT ((c :: d :: cs') ++ rest) =
          closedFrom .SWIG_COMMENT ((d :: cs') ++ rest) := by
        by_cases hcc : c = '#'
        · subst hcc
          have hd : d ≠ '}' := fun hd => h1 cs' rfl (by rw [hd])
          simp [closedFrom, hd]
        · simp [closedFrom, hcc]
      rw [hstep]
      exact ih hclosed' hlast' rest
  | case10 cs ih =>
    intro hclosed hlast rest
    simp only [closedFrom] at hclosed
    have hlast' : cs.getLast? ≠ some '{' := by
      rcases cs with _ | ⟨d, cs'⟩
      · simp
      · rwa [List.getLast?_cons_cons, List.getLast?_cons_cons] at hlast
    rw [show ('%' :: '}' :: cs) ++ rest = '%' :: '}' :: (cs ++ rest) from rfl]
    rw [show closedFrom .SWIG_TAG ('%' :: '}' :: (cs ++ rest)) =
        closedFrom .PLAINTEXT (cs ++ rest) from by simp [closedFrom]]
    exact ih hclosed hlast' rest
  | case11 c cs h1 ih =>
    intro hclosed hlast rest
    rcases cs with _ | ⟨d, cs'⟩
    · simp [closedFrom] at hclosed
      exact absurd hclosed (by decide)
    · have hclosed' : closedFrom .SWIG_TAG (d :: cs') = true := by
        simpa [closedFrom, h1] using hclosed
      have hlast' : (d :: cs').getLast? ≠ some '{' := by
        rwa [List.getLast?_cons_cons] at hlast
      have hstep : closedFrom .SWIG_TAG ((c :: d :: cs') ++ rest) =
          closedFrom .SWIG_TAG ((d :: cs') ++ rest) := by
        by_cases hcc : c = '%'
        · subst hcc
          have hd : d ≠ '}' := fun hd => h1 cs' rfl (by rw [hd])
          simp [closedFrom, hd]
        · simp [closedFrom, hcc]
      rw [hstep]
      exact ih hclosed' hlast' rest

/-- Comment erasure composes over a properly closed text that does not
end in `{`. -/
theorem eraseFrom_append (st : PState) (pre : List Char) :
    closedFrom st pre = true → pre.getLast? ≠ some '{' →
    ∀ rest,
      eraseFrom st (pre ++ rest) = eraseFrom st pre ++ eraseFrom .PLAINTEXT rest := by
  induction st, pre using eraseFrom.induct with
  | case1 st =>
    intro hclosed _ rest
    have hst : st = .PLAINTEXT := by
      cases st with
      | PLAINTEXT => rfl
      | SWIG_VAR => exact absurd hclosed (by decide)
      | SWIG_COMMENT => exact absurd hclosed (by decide)
      | SWIG_TAG => exact absurd hclosed (by decide)
    subst hst
    simp [eraseFrom]
  | case2 cs ih =>
    intro hclosed hlast rest
    simp only [closedFrom] at hclosed
    rcases cs with _ | ⟨d, cs'⟩
    · exact absurd hclosed (by decide)
    · have hlast' : (d :: cs').getLast? ≠ some '{' := by
        rwa [List.getLast?_cons_cons, List.getLast?_cons_cons] at hlast
      rw [show ('{' :: '{' :: (d :: cs')) ++ rest = '{' :: '{' :: ((d :: cs') ++ rest)
        from rfl]
      rw [show eraseFrom .PLAINTEXT ('{' :: '{' :: ((d :: cs') ++ rest)) =
          '{' :: '{' :: eraseFrom .SWIG_VAR ((d :: cs') ++ rest) from by simp [eraseFrom]]
      rw [ih hclosed hlast' rest]
      simp [eraseFrom]
  | case3 cs ih =>
    intro hclosed hlast rest
    simp only [closedFrom] at hclosed
    rcases cs with _ | ⟨d, cs'⟩
    · exact absurd hclosed (by decide)
    · have hlast' : (d :: cs').getLast? ≠ some '{' := by
        rwa [List.getLast?_cons_cons, List.getLast?_cons_cons] at hlast
      rw [show ('{' :: '#' :: (d :: cs')) ++ rest = '{' :: '#' :: ((d :: cs') ++ rest)
        from rfl]
      rw [show eraseFrom .PLAINTEXT ('{' :: '#' :: ((d :: cs') ++ rest)) =
          eraseFrom .SWIG_COMMENT ((d :: cs') ++ rest) from by simp [eraseFrom]]
      rw [ih hclosed hlast' rest]
      simp [eraseFrom]
  | case4 cs ih =>
    intro hclosed hlast rest
    simp only [closedFrom] at hclosed
    rcases cs with _ | ⟨d, cs'⟩
    · exact absurd hclosed (by decide)
    · have hlast' : (d :: cs').getLast? ≠ some '{' := by
        rwa [List.getLast?_cons_cons, List.getLast?_cons_cons] at hlast
      rw [show ('{' :: '%' :: (d :: cs')) ++ rest = '{' :: '%' :: ((d :: cs') ++ rest)
        from rfl]
      rw [show eraseFrom .PLAINTEXT ('{' :: '%' :: ((d :: cs') ++ rest)) =
          '{' :: '%' :: eraseFrom .SWIG_TAG ((d :: cs') ++ rest) from by simp [eraseFrom]]
      rw [ih hclosed hlast' rest]
      simp [eraseFrom]
  | case5 c cs h1 h2 h3 ih =>
    intro hclosed hlast rest
    have hclosed' : closedFrom .PLAINTEXT cs = true := by
      simpa [closedFrom, h1, h2, h3] using hclosed
    rcases cs with _ | ⟨d, cs'⟩
    · have hcne : c ≠ '{' := by
        intro h
        subst h
        exact hlast (by simp)
      simp [eraseFrom, hcne]
    · have hlast' : (d :: cs').getLast? ≠ some '{' := by
        rwa [List.getLast?_cons_cons] at hlast
      have hstep : eraseFrom .PLAINTEXT ((c :: d :: cs') ++ rest) =
          c :: eraseFrom .PLAINTEXT ((d :: cs') ++ rest) := by
        by_cases hcc : c = '{'
        · subst hcc
          have hd1 : d ≠ '{' := fun hd => h1 cs' rfl (by rw [hd])
          have hd2 : d ≠ '#' := fun hd => h2 cs' rfl (by rw [hd])
          have hd3 : d ≠ '%' := fun hd => h3 cs' rfl (by rw [hd])
          simp [eraseFrom, hd1, hd2, hd3]
        · simp [eraseFrom, hcc]
      have hstep2 : eraseFrom .PLAINTEXT (c :: d :: cs') =
          c :: eraseFrom .PLAINTEXT (d :: cs') := by
        by_cases hcc : c = '{'
        · subst hcc
          have hd1 : d ≠ '{' := fun hd => h1 cs' rfl (by rw [hd])
          have hd2 : d ≠ '#' := fun hd => h2 cs' rfl (by rw [hd])
          have hd3 : d ≠ '%' := fun hd => h3 cs' rfl (by rw [hd])
          simp [eraseFrom, hd1, hd2, hd3]
        · simp [eraseFrom, hcc]
      rw [hstep, ih hclosed' hlast' rest, hstep2]
      simp
  | case6 cs ih =>
    intro hclosed hlast rest
    simp only [closedFrom] at hclosed
    have hlast' : cs.getLast? ≠ some '{' := by
      rcases cs with _ | ⟨d, cs'⟩
      · simp
      · rwa [List.getLast?_cons_cons, List.getLast?_cons_cons] at hlast
    rw [show ('}' :: '}' :: cs) ++ rest = '}' :: '}' :: (cs ++ rest) from rfl]
    rw [show eraseFrom .SWIG_VAR ('}' :: '}' :: (cs ++ rest)) =
        '}' :: '}' :: eraseFrom .PLAINTEXT (cs ++ rest) from by simp [eraseFrom]]
    rw [ih hclosed hlast' rest]
    simp [eraseFrom]
  | case7 c cs h1 ih =>
    intro hclosed hlast rest
    rcases cs with _ | ⟨d, cs'⟩
    · simp [closedFrom] at hclosed
      exact absurd hclosed (by decide)
    · have hclosed' : closedFrom .SWIG_VAR (d :: cs') = true := by
        simpa [closedFrom, h1] using hclosed
      have hlast' : (d :: cs').getLast? ≠ some '{' := by
        rwa [List.getLast?_cons_cons] at hlast
      have hstep : eraseFrom .SWIG_VAR ((c :: d :: cs') ++ rest) =
          c :: eraseFrom .SWIG_VAR ((d :: cs') ++ rest) := by
        by_cases hcc : c = '}'
        · subst hcc
          have hd : d ≠ '}' := fun hd => h1 cs' rfl (by rw [hd])
          simp [eraseFrom, hd]
        · simp [eraseFrom, hcc]
      have hstep2 : eraseFrom .SWIG_VAR (c :: d :: cs') =
          c :: eraseFrom .SWIG_VAR (d :: cs') := by
        by_cases hcc : c = '}'
        · subst hcc
          have hd : d ≠ '}' := fun hd => h1 cs' rfl (by rw [hd])
          simp [eraseFrom, hd]
        · simp [eraseFrom, hcc]
      rw [hstep, ih hclosed' hlast' rest, hstep2]
      simp
  | case8 cs ih =>
    intro hclosed hlast rest
    simp only [closedFrom] at hclosed
    have hlast' : cs.getLast? ≠ some '{' := by
      rcases cs with _ | ⟨d, cs'⟩
      · simp
      · rwa [List.getLast?_cons_cons, List.getLast?_cons_cons] at hlast
    rw [show ('#' :: '}' :: cs) ++ rest = '#' :: '}' :: (cs ++ rest) from rfl]
    rw [show eraseFrom .SWIG_COMMENT ('#' :: '}' :: (cs ++ rest)) =
        eraseFrom .PLAINTEXT (cs ++ rest) from by simp [eraseFrom]]
    rw [ih hclosed hlast' rest]
    simp [eraseFrom]
  | case9 c cs h1 ih =>
    intro hclosed hlast rest
    rcases cs with _ | ⟨d, cs'⟩
    · simp [closedFrom] at hclosed
      exact absurd hclosed (by decide)
    · have hclosed' : closedFrom .SWIG_COMMENT (d :: cs') = true := by
        simpa [closedFrom, h1] using hclosed
      have hlast' : (d :: cs').getLast? ≠ some '{' := by
        rwa [List.getLast?_cons_cons] at hlast
      have hstep : eraseFrom .SWIG_COMMENT ((c :: d :: cs') ++ rest) =
          eraseFrom .SWIG_COMMENT ((d :: cs') ++ rest) := by
        by_cases hcc : c = '#'
        · subst hcc
          have hd : d ≠ '}' := fun hd => h1 cs' rfl (by rw [hd])
          simp [eraseFrom, hd]
        · simp [eraseFrom, hcc]
      have hstep2 : eraseFrom .SWIG_COMMENT (c :: d :: cs') =
          eraseFrom .SWIG_COMMENT (d :: cs') := by
        by_cases hcc : c = '#'
        · subst hcc
          have hd : d ≠ '}' := fun hd => h1 cs' rfl (by rw [hd])
          simp [eraseFrom, hd]
        · simp [eraseFrom, hcc]
      rw [hstep, ih hclosed' hlast' rest, hstep2]
  | case10 cs ih =>
    intro hclosed hlast rest
    simp only [closedFrom] at hclosed
    have hlast' : cs.getLast? ≠ some '{' := by
      rcases cs with _ | ⟨d, cs'⟩
      · simp
      · rwa [List.getLast?_cons_cons, List.getLast?_cons_cons] at hlast
    rw [show ('%' :: '}' :: cs) ++ rest = '%' :: '}' :: (cs ++ rest) from rfl]
    rw [show eraseFrom .SWIG_TAG ('%' :: '}' :: (cs ++ rest)) =
        '%' :: '}' :: eraseFrom .PLAINTEXT (cs ++ rest) from by simp [eraseFrom]]
    rw [ih hclosed hlast' rest]
    simp [eraseFrom]
  | case11 c cs h1 ih =>
    intro hclosed hlast rest
    rcases cs with _ | ⟨d, cs'⟩
    · simp [closedFrom] at hclosed
      exact absurd hclosed (by decide)
    · have hclosed' : closedFrom .SWIG_TAG (d :: cs') = true := by
        simpa [closedFrom, h1] using hclosed
      have hlast' : (d :: cs').getLast? ≠ some '{' := by
        rwa [List.getLast?_cons_cons] at hlast
      have hstep : eraseFrom .SWIG_TAG ((c :: d :: cs') ++ rest) =
          c :: eraseFrom .SWIG_TAG ((d :: cs') ++ rest) := by
        by_cases hcc : c = '%'
        · subst hcc
          have hd : d ≠ '}' := fun hd => h1 cs' rfl (by rw [hd])
          simp [eraseFrom, hd]
        · simp [eraseFrom, hcc]
      have hstep2 : eraseFrom .SWIG_TAG (c :: d :: cs') =
          c :: eraseFrom .SWIG_TAG (d :: cs') := by
        by_cases hcc : c = '%'
        · subst hcc
          have hd : d ≠ '}' := fun hd => h1 cs' rfl (by rw [hd])
          simp [eraseFrom, hd]
        · simp [eraseFrom, hcc]
      rw [hstep, ih hclosed' hlast' rest, hstep2]
      simp

/-- A comment body with no early `#}` closer takes the closedness check
straight through the comment state to its closer. -/
theorem closedFrom_comment_skip :
    ∀ (c : List Char), ¬ (['#', '}'] <:+: c) →
      ∀ rest, closedFrom .SWIG_COMMENT (c ++ '#' :: '}' :: rest) =
        closedFrom .PLAINTEXT rest := by
  intro c
  induction c with
  | nil => intro _ rest; simp [closedFrom]
  | cons x c' ih =>
    intro h rest
    have h' : ¬ (['#', '}'] <:+: c') := fun hx => h (List.infix_cons hx)
    have hstep : closedFrom .SWIG_COMMENT ((x :: c') ++ '#' :: '}' :: rest) =
        closedFrom .SWIG_COMMENT (c' ++ '#' :: '}' :: rest) := by
      by_cases hx : x = '#'
      · subst hx
        cases c' with
        | nil => simp [closedFrom]
        | cons y c'' =>
          have hy : y ≠ '}' := by rintro rfl; exact h ⟨[], c'', rfl⟩
          simp [closedFrom, hy]
      · simp [closedFrom, hx]
    rw [hstep, ih h' rest]

/-- A comment body with no early `#}` closer is erased together with its
closer. -/
theorem eraseFrom_comment_skip :
    ∀ (c : List Char), ¬ (['#', '}'] <:+: c) →
      ∀ rest, eraseFrom .SWIG_COMMENT (c ++ '#' :: '}' :: rest) =
        eraseFrom .PLAINTEXT rest := by
  intro c
  induction c with
  | nil => intro _ rest; simp [eraseFrom]
  | cons x c' ih =>
    intro h rest
    have h' : ¬ (['#', '}'] <:+: c') := fun hx => h (List.infix_cons hx)
    have hstep : eraseFrom .SWIG_COMMENT ((x :: c') ++ '#' :: '}' :: rest) =
        eraseFrom .SWIG_COMMENT (c' ++ '#' :: '}' :: rest) := by
      by_cases hx : x = '#'
      · subst hx
        cases c' with
        | nil => simp [eraseFrom]
        | cons y c'' =>
          have hy : y ≠ '}' := by rintro rfl; exact h ⟨[], c'', rfl⟩
          simp [eraseFrom, hy]
      · simp [eraseFrom, hx]
    rw [hstep, ih h' rest]

/-- General escape/restore behaviour on properly closed, delimiter-free
text passing the pre-check: restoration yields the comment-erased text,
and every escape-table entry is a variable or block tag escape. -/
theorem escape_restore_erase (str : List Char)
    (ht : swigTagRegexTest str = true)
    (hclosed : closedFrom .PLAINTEXT str = true)
    (hf : noObjRepl str) :
    restoreAllSwigTags ((escapeAllSwigTags [] str).1.map some)
        ((escapeAllSwigTags [] str).2) =
      some (List.replicate (escapeAllSwigTags [] str).1.length none,
        eraseFrom .PLAINTEXT str) ∧
    (∀ e ∈ (escapeAllSwigTags [] str).1,
      (∃ b, e = '{' :: '{' :: b) ∨ (∃ b, e = '{' :: '%' :: b)) := by
  unfold escapeAllSwigTags
  rw [if_pos ht]
  rcases scan_struct str .PLAINTEXT [] str [] hclosed (fun _ => rfl) hf with
    ⟨pe, tr, hscan, hcond, htr, horig⟩
  rw [hscan]
  constructor
  · simp only [List.nil_append, List.length_nil]
    unfold restoreAllSwigTags
    have hro := restore_out pe 0 tr
      (fun pr hpr => ⟨(hcond pr hpr).1, (hcond pr hpr).2.1⟩) htr
    simp only [List.replicate, List.nil_append, Nat.zero_add] at hro
    rw [hro, horig]
    rw [show reconOf .PLAINTEXT [] str = eraseFrom .PLAINTEXT str from rfl]
    simp
  · intro e he
    simp only [List.nil_append] at he
    rcases List.mem_map.mp he with ⟨pr, hpr, hpr2⟩
    rw [← hpr2]
    exact (hcond pr hpr).2.2

/-- C4 (amended): for text of the form `pre ++ {#c#} ++ post` — where
`pre` and `post` are properly closed texts (they may contain variable,
block and comment tags of their own), `pre` does not end in `{`, the
body `c` has no early `#}` closer, the whole text passes the tag
pre-check and is free of the placeholder delimiter `U+FFFC` — escaping
and then restoring yields the comment-erased text: the comment is
dropped and does not reappear (in particular, when its text does not
also occur in the comment-erased remainder, it is absent from the
restored output), and no escape-table entry is created for it: every
entry is a variable or block tag escape. -/
theorem comment_dropped_amended (pre c post : List Char)
    (hpre : closedFrom .PLAINTEXT pre = true)
    (hlast : pre.getLast? ≠ some '{')
    (hc : ¬ (['#', '}'] <:+: c))
    (hpost : closedFrom .PLAINTEXT post = true)
    (hf : noObjRepl (pre ++ '{' :: '#' :: (c ++ '#' :: '}' :: post)))
    (ht : swigTagRegexTest (pre ++ '{' :: '#' :: (c ++ '#' :: '}' :: post)) = true) :
    restoreAllSwigTags
        ((escapeAllSwigTags [] (pre ++ '{' :: '#' :: (c ++ '#' :: '}' :: post))).1.map some)
        ((escapeAllSwigTags [] (pre ++ '{' :: '#' :: (c ++ '#' :: '}' :: post))).2) =
      some (List.replicate
          (escapeAllSwigTags [] (pre ++ '{' :: '#' :: (c ++ '#' :: '}' :: post))).1.length
          none,
        eraseFrom .PLAINTEXT pre ++ eraseFrom .PLAINTEXT post) ∧
    (∀ e ∈ (escapeAllSwigTags [] (pre ++ '{' :: '#' :: (c ++ '#' :: '}' :: post))).1,
      (∃ b, e = '{' :: '{' :: b) ∨ (∃ b, e = '{' :: '%' :: b)) ∧
    (∀ (R : List (Option (List Char))) (out2 : List Char),
      restoreAllSwigTags
          ((escapeAllSwigTags []
            (pre ++ '{' :: '#' :: (c ++ '#' :: '}' :: post))).1.map some)
          ((escapeAllSwigTags []
            (pre ++ '{' :: '#' :: (c ++ '#' :: '}' :: post))).2) =
        some (R, out2) →
      ¬ (c <:+: (eraseFrom .PLAINTEXT pre ++ eraseFrom .PLAINTEXT post)) →
      ¬ (c <:+: out2)) := by
  have hclosedT :
      closedFrom .PLAINTEXT (pre ++ '{' :: '#' :: (c ++ '#' :: '}' :: post)) = true := by
    rw [closedFrom_append .PLAINTEXT pre hpre hlast]
    rw [show closedFrom .PLAINTEXT ('{' :: '#' :: (c ++ '#' :: '}' :: post)) =
        closedFrom .SWIG_COMMENT (c ++ '#' :: '}' :: post) from by simp [closedFrom]]
    rw [closedFrom_comment_skip c hc post]
    exact hpost
  have heraseT : eraseFrom .PLAINTEXT (pre ++ '{' :: '#' :: (c ++ '#' :: '}' :: post)) =
      eraseFrom .PLAINTEXT pre ++ eraseFrom .PLAINTEXT post := by
    rw [eraseFrom_append .PLAINTEXT pre hpre hlast]
    rw [show eraseFrom .PLAINTEXT ('{' :: '#' :: (c ++ '#' :: '}' :: post)) =
        eraseFrom .SWIG_COMMENT (c ++ '#' :: '}' :: post) from by simp [eraseFrom]]
    rw [eraseFrom_comment_skip c hc post]
  obtain ⟨hround, hentries⟩ :=
    escape_restore_erase (pre ++ '{' :: '#' :: (c ++ '#' :: '}' :: post)) ht hclosedT hf
  refine ⟨?_, hentries, ?_⟩
  · rw [hround, heraseT]
  · intro R out2 hres hno hcin
    rw [hround] at hres
    have h2 : eraseFrom .PLAINTEXT (pre ++ '{' :: '#' :: (c ++ '#' :: '}' :: post)) =
        out2 := congrArg Prod.snd (Option.some.inj hres)
    have hout : out2 = eraseFrom .PLAINTEXT pre ++ eraseFrom .PLAINTEXT post := by
      rw [← h2, heraseT]
    rw [hout] at hcin
    exact hno hcin

/-- C4 witness: the comment in `{{x}} {#c#}` — a text with another tag in
front of the comment — is dropped for good: restoration yields the
comment-erased text, which does not contain the comment body. -/
theorem comment_dropped_amended_witness :
    restoreAllSwigTags
        ((escapeAllSwigTags []
            ((['{', '{', 'x', '}', '}', ' ']) ++ '{' :: '#' ::
              ((['c']) ++ '#' :: '}' :: ([] : List Char)))).1.map some)
        ((escapeAllSwigTags []
            ((['{', '{', 'x', '}', '}', ' ']) ++ '{' :: '#' ::
              ((['c']) ++ '#' :: '}' :: ([] : List Char)))).2) =
      some (List.replicate
          (escapeAllSwigTags []
            ((['{', '{', 'x', '}', '}', ' ']) ++ '{' :: '#' ::
              ((['c']) ++ '#' :: '}' :: ([] : List Char)))).1.length
          none,
        eraseFrom .PLAINTEXT (['{', '{', 'x', '}', '}', ' ']) ++
          eraseFrom .PLAINTEXT ([] : List Char)) ∧
    ¬ ((['c']) <:+:
      (eraseFrom .PLAINTEXT (['{', '{', 'x', '}', '}', ' ']) ++
        eraseFrom .PLAINTEXT ([] : List Char))) :=
  ⟨(comment_dropped_amended ['{', '{', 'x', '}', '}', ' '] ['c'] []
      (by decide) (by decide) (by decide) (by decide) (by decide) (by decide)).1,
    by decide⟩

/-- C4 counterexample: the text `{##{}#}` consists of one properly closed
comment tag with body `#{}`, but fails the tag pre-check, so
`escapeAllSwigTags` returns it unchanged and the comment text survives
in the output. -/
theorem comment_precheck_cex :
    swigTagRegexTest (['{', '#', '#', '{', '}', '#', '}']) = false ∧
    escapeAllSwigTags [] (['{', '#', '#', '{', '}', '#', '}']) =
      ([], ['{', '#', '#', '{', '}', '#', '}']) ∧
    closedFrom .PLAINTEXT (['{', '#', '#', '{', '}', '#', '}']) = true ∧
    (['#', '{', '}'] <:+:
      (escapeAllSwigTags [] (['{', '#', '#', '{', '}', '#', '}'])).2) := by
  refine ⟨by decide, by decide, by decide, by decide⟩

end PostSpec
